import Mathlib

/-!
# Verification of the tag/stem engine of `langacore.kit.django.tags.models`

A shallow embedding of the tagging models in
`src/langacore/kit/django/tags/models.py`: stems with reference counts
(`TagStem`), tags (`Tag`), the taggable facade (`tag`, `untag`, `untag_all`,
`similar_objects`), the default-tags synchronizer (`Taggable.save`) and the
`post_delete` hook (`clean_stems`).

The external store (Django ORM) is modelled as a `Store`: a list of stem rows
and a list of tag rows together with the next auto-generated primary keys.
Python `None` on a foreign key or primary key is `Option.none`.  Dictionary
and set iteration order (used by `TagStem.objects.get_all`) is modelled as
first-appearance order, which is deterministic, mirroring the deterministic
hash-table iteration of the source runtime.  Python's stable `list.sort` is
modelled with `List.insertionSort`, which Mathlib proves stable and sorted.
-/

/-- Entity references: the generic foreign key is a `(content_type, object_id)`
pair of naturals. -/
abbrev Entity := Nat × Nat

/-- One `TagStem` row: `Named.NonUnique` (`name`), `Localized` (`language`),
and the `tag_count` positive-integer field (default 0). -/
structure Stem where
  id : Nat
  name : String
  language : Nat
  tag_count : Nat
deriving DecidableEq, Repr

/-- One `Tag` row: `name`, `language`, the nullable `stem` foreign key, the
`author` foreign key, the `official` flag (default `False`), and the generic
relation `(content_type, object_id)`.  `id` is `none` until first saved. -/
structure Tag where
  id : Option Nat
  name : String
  language : Nat
  stem : Option Nat
  author : Nat
  official : Bool
  content_type : Nat
  object_id : Nat
deriving DecidableEq, Repr

/-- The persistent store: stem rows, tag rows, and the auto-increment primary
key counters. -/
structure Store where
  stems : List Stem
  tags : List Tag
  nextStemId : Nat
  nextTagId : Nat
deriving DecidableEq, Repr

/-- The empty database. -/
def Store.empty : Store := ⟨[], [], 0, 0⟩

/-- Number of live tag rows whose `stem` foreign key is `i`. -/
def refs (s : Store) (i : Nat) : Nat :=
  s.tags.countP (fun t => t.stem == some i)

/-- An author-like value handed to `_tag_get_user`: either resolvable to the
configured author model (directly, via `User.get_profile()`, via a `.user`
attribute, or via a `.profile` attribute), or unresolvable (this also covers
Python `None`). -/
inductive AuthorRef where
  | authorObj (a : Nat)
  | userWithProfile (a : Nat)
  | hasUserAttr (a : Nat)
  | hasProfileAttr (a : Nat)
  | unresolvable
deriving DecidableEq, Repr

/-- A language-like value handed to `_tag_get_language`: an `int`, a `Choice`
(carrying its `id`), or anything else (including Python `None`). -/
inductive LangRef where
  | intLang (l : Nat)
  | choiceLang (l : Nat)
  | otherLang
deriving DecidableEq, Repr

/-- `_tag_get_user(author, default)`.  `default = none` models the `unset`
sentinel (raises `ValueError` when the author is unresolvable);
`default = some d` models an explicit default, silently returned instead. -/
def tag_get_user : AuthorRef → Option (Option Nat) → Except String (Option Nat)
  | .authorObj a, _ => .ok (some a)
  | .userWithProfile a, _ => .ok (some a)
  | .hasUserAttr a, _ => .ok (some a)
  | .hasProfileAttr a, _ => .ok (some a)
  | .unresolvable, some d => .ok d
  | .unresolvable, none => .error "ValueError: author"

/-- `_tag_get_language(language, default)`, same `default` convention. -/
def tag_get_language : LangRef → Option (Option Nat) → Except String (Option Nat)
  | .intLang l, _ => .ok (some l)
  | .choiceLang l, _ => .ok (some l)
  | .otherLang, some d => .ok d
  | .otherLang, none => .error "ValueError: language"

/-- First-occurrence deduplication, keeping first-seen order (spec section 4.1:
"duplicate names collapse to one, preserving first-seen order"; also used to
model `.distinct()` querysets and dict key order). -/
def dedupFirstAux {α : Type} [DecidableEq α] (seen : List α) : List α → List α
  | [] => []
  | a :: rest =>
    if seen.contains a then dedupFirstAux seen rest
    else a :: dedupFirstAux (a :: seen) rest

/-- First-occurrence deduplication, keeping first-seen order. -/
def dedupFirst {α : Type} [DecidableEq α] (l : List α) : List α :=
  dedupFirstAux [] l

/-- Modelled from the spec: splitting a comma-delimited tag list with
double-quote escaping (section 4.1); part of `parse_tag_input` from
`langacore.kit.django.tags.helpers`, which is not among the sources.
Quotes toggle an "inside quotes" state and are dropped; commas outside quotes
delimit; an unterminated quote is treated literally (never raises). -/
def splitQuoted : List Char → List Char → Bool → List (List Char)
  | [], cur, _ => [cur.reverse]
  | c :: rest, cur, inQ =>
    if c = '"' then splitQuoted rest cur (!inQ)
    else if c = ',' ∧ ¬ inQ then cur.reverse :: splitQuoted rest [] false
    else splitQuoted rest (c :: cur) inQ

/-- Modelled from the spec: whitespace splitting, for tag input without a
comma (section 4.1). -/
def splitWs : List Char → List Char → List (List Char)
  | [], cur => [cur.reverse]
  | c :: rest, cur =>
    if c.isWhitespace then cur.reverse :: splitWs rest []
    else splitWs rest (c :: cur)

/-- Leading and trailing whitespace removal on a character list. -/
def trimChars (l : List Char) : List Char :=
  ((l.dropWhile Char.isWhitespace).reverse.dropWhile Char.isWhitespace).reverse

/-- Modelled from the spec: `parse_tag_input` from
`langacore.kit.django.tags.helpers` (not among the sources).  Spec section
4.1: if the text has no comma, whitespace delimits; otherwise commas delimit
with double-quote escaping; each name is trimmed, empty names are dropped and
duplicates collapse to the first occurrence. -/
def parse_tag_input (s : String) : List String :=
  let raw := if s.data.contains ',' then splitQuoted s.data [] false
             else splitWs s.data []
  dedupFirst ((raw.map (fun cs => String.mk (trimChars cs))).filter
    (fun x => !(x == "")))

/-- `TagStem.objects.get_or_create(name=..., language=...)`: returns the id of
the stem row matching the key, creating it (with the default `tag_count = 0`)
when absent. -/
def get_or_create (s : Store) (n : String) (l : Nat) : Store × Nat :=
  match s.stems.find? (fun st => st.name == n && st.language == l) with
  | some st => (s, st.id)
  | none =>
    ({s with stems := s.stems ++ [⟨s.nextStemId, n, l, 0⟩],
             nextStemId := s.nextStemId + 1}, s.nextStemId)

/-- `TagStem.inc_count`: `self.tag_count += 1; self.save()` on the stem row
with id `sid`. -/
def TagStem.inc_count (s : Store) (sid : Nat) : Store :=
  {s with stems := s.stems.map (fun x =>
     if x.id == sid then {x with tag_count := x.tag_count + 1} else x)}

/-- `TagStem.dec_count`: on the stem row with id `sid`, decrement and save if
`tag_count > 1`, else delete the row.  A missing row is a no-op (the
`TagStem.DoesNotExist` raised when the hook races a deletion is swallowed by
the caller `clean_stems`). -/
def TagStem.dec_count (s : Store) (sid : Nat) : Store :=
  match s.stems.find? (fun st => st.id == sid) with
  | none => s
  | some st =>
    if st.tag_count > 1 then
      {s with stems := s.stems.map (fun x =>
         if x.id == sid then {x with tag_count := x.tag_count - 1} else x)}
    else
      {s with stems := s.stems.filter (fun x => !(x.id == sid))}

/-- `Tag.update_stem`: get-or-create the stem for the tag's current
`(name, language)`; if it differs from the tag's stored stem (Django compares
model instances by primary key; `None` differs from any instance), decrement
the old stem when present, reassign, and increment the new stem. -/
def Tag.update_stem (s : Store) (t : Tag) : Store × Tag :=
  let r := get_or_create s t.name t.language
  if t.stem == some r.2 then (r.1, t)
  else
    let s2 := match t.stem with
              | some old => TagStem.dec_count r.1 old
              | none => r.1
    (TagStem.inc_count s2 r.2, {t with stem := some r.2})

/-- `Tag.save`, returning both the store and the saved row.  `staff a` tells
whether the resolved identity behind author `a` (`self.author.user` when the
author model wraps a user, else `self.author`) has `is_staff` set; the flag is
only ever set to `True`, never cleared.  Then `update_stem` runs and the row
is inserted (assigning the next primary key) or updated in place by primary
key. -/
def Tag.saveT (staff : Nat → Bool) (s : Store) (t : Tag) : Store × Tag :=
  let t1 := if staff t.author then {t with official := true} else t
  let r := Tag.update_stem s t1
  match r.2.id with
  | none =>
    let t2 := {r.2 with id := some r.1.nextTagId}
    ({r.1 with tags := r.1.tags ++ [t2], nextTagId := r.1.nextTagId + 1}, t2)
  | some i =>
    ({r.1 with tags := r.1.tags.map (fun x => if x.id == some i then r.2 else x)}, r.2)

/-- `Tag.save`, keeping only the store. -/
def Tag.save (staff : Nat → Bool) (s : Store) (t : Tag) : Store :=
  (Tag.saveT staff s t).1

/-- `clean_stems` (the `post_delete` receiver): decrement the stem referenced
by a just-deleted tag row; a null stem (`AttributeError`) or an already
deleted stem row (`TagStem.DoesNotExist`) is swallowed. -/
def clean_stems (s : Store) (t : Tag) : Store :=
  match t.stem with
  | some sid => TagStem.dec_count s sid
  | none => s

/-- Deletion of every tag row satisfying `p`, followed by the `post_delete`
hook for each deleted row (Django's collector deletes the rows, then sends
`post_delete` per instance; each hook sees the store as updated by the
previous ones). -/
def removeAndDec (s : Store) (p : Tag → Bool) : Store :=
  let doomed := s.tags.filter p
  let s1 : Store := {s with tags := s.tags.filter (fun t => !(p t))}
  doomed.foldl clean_stems s1

/-- `tag.delete()`: delete the row with this primary key and fire
`clean_stems`. -/
def deleteTag (s : Store) (i : Option Nat) : Store :=
  removeAndDec s (fun t => t.id == i)

/-- The loop body of `TaggableBase.tag` after author/language resolution: one
fresh `Tag(name=n, language=lang, author=author, content_object=self)` is
constructed and saved per parsed name. -/
def TaggableBase.tagRun (staff : Nat → Bool) (s : Store) (names : List String)
    (lang author ct oid : Nat) : Store :=
  names.foldl (fun st n =>
    Tag.save staff st ⟨none, n, lang, none, author, false, ct, oid⟩) s

/-- `TaggableBase.tag(name, language, author)`: resolve the author and the
language (raising before any mutation on failure), parse the input, then save
one fresh tag per name. -/
def TaggableBase.tag (staff : Nat → Bool) (s : Store) (name : String)
    (language : LangRef) (author : AuthorRef) (ct oid : Nat) :
    Except String Store :=
  match tag_get_user author none, tag_get_language language none with
  | .ok (some a), .ok (some l) =>
    .ok (TaggableBase.tagRun staff s (parse_tag_input name) l a ct oid)
  | _, _ => .error "ValueError"

/-- The language, author and entity conditions of the `Tag.objects.get(...)`
lookup of `TaggableBase.untag`. -/
def untagRest (l a ct oid : Nat) (t : Tag) : Bool :=
  t.language == l && t.author == a && t.content_type == ct && t.object_id == oid

/-- Does tag row `t` match name `n`, language `l`, author `a` and entity
`(ct, oid)`?  This is the `Tag.objects.get(...)` lookup of
`TaggableBase.untag`. -/
def untagMatches (n : String) (l a ct oid : Nat) (t : Tag) : Bool :=
  t.name == n && untagRest l a ct oid t

/-- The loop of `TaggableBase.untag` over parsed names.  For each name,
`Tag.objects.get`: no match means `Tag.DoesNotExist`, silently passed; a
unique match is deleted; multiple matches raise `MultipleObjectsReturned`,
aborting the loop (the flag records the abort) with earlier deletions kept. -/
def TaggableBase.untagRun (s : Store) (names : List String)
    (l a ct oid : Nat) : Store × Bool :=
  match names with
  | [] => (s, false)
  | n :: rest =>
    match s.tags.filter (untagMatches n l a ct oid) with
    | [] => TaggableBase.untagRun s rest l a ct oid
    | [t] => TaggableBase.untagRun (deleteTag s t.id) rest l a ct oid
    | _ => (s, true)

/-- `TaggableBase.untag(name, language, author)`: resolve author and language
strictly, then run the per-name delete loop. -/
def TaggableBase.untag (s : Store) (name : String) (language : LangRef)
    (author : AuthorRef) (ct oid : Nat) : Except String Store :=
  match tag_get_user author none, tag_get_language language none with
  | .ok (some a), .ok (some l) =>
    let r := TaggableBase.untagRun s (parse_tag_input name) l a ct oid
    if r.2 then .error "MultipleObjectsReturned" else .ok r.1
  | _, _ => .error "ValueError"

/-- The filter built by `TaggableBase.untag_all`: always scoped to the entity;
the name, language and author conditions are only added when the
corresponding resolved filter is not `None`. -/
def untagAllMatches (names : Option (List String)) (l? a? : Option Nat)
    (ct oid : Nat) (t : Tag) : Bool :=
  t.content_type == ct && t.object_id == oid &&
  (match names with | none => true | some ns => ns.contains t.name) &&
  (match l? with | none => true | some l => t.language == l) &&
  (match a? with | none => true | some a => t.author == a)

/-- `TaggableBase.untag_all([name], [language], [author])`: author and
language are resolved with `default=None` (never raising; an unresolvable
value silently becomes `None` and the filter is omitted), then every matching
tag row on the entity is bulk-deleted, firing `clean_stems` per row.  The
error branch is unreachable because defaults are supplied. -/
def TaggableBase.untag_all (s : Store) (name : Option String)
    (language : LangRef) (author : AuthorRef) (ct oid : Nat) : Store :=
  match tag_get_user author (some none), tag_get_language language (some none) with
  | .ok a?, .ok l? =>
    removeAndDec s (untagAllMatches (name.map parse_tag_input) l? a? ct oid)
  | _, _ => s

/-- Does a tag row fall in the similarity scope for entity `e`?  Used by the
`TagStem` manager queries: always the entity's own rows; when `official` is
requested, only official rows. -/
def scopeMatches (e : Entity) (official : Bool) (t : Tag) : Bool :=
  t.content_type == e.1 && t.object_id == e.2 && (!official || t.official)

/-- The distinct stem ids of entity `e`'s tags in scope
(`TagStemManager.get_queryset_for_model` with `instance=e`). -/
def stemsFor (s : Store) (official : Bool) (e : Entity) : List Nat :=
  dedupFirst ((s.tags.filter (scopeMatches e official)).filterMap (fun t => t.stem))

/-- The keys of `TagStemManager.get_all`: every entity holding at least one
tag row in scope, in deterministic first-appearance order (modelling the
source's set/dict iteration order). -/
def entityKeys (s : Store) (official : Bool) : List Entity :=
  dedupFirst ((s.tags.filter (fun t => !official || t.official)).map
    (fun t => (t.content_type, t.object_id)))

/-- The keys of `TagStemManager.get_for_model`: as `entityKeys` but restricted
to one content type. -/
def entityKeysForCT (s : Store) (ct : Nat) (official : Bool) : List Entity :=
  dedupFirst ((s.tags.filter (fun t => t.content_type == ct && (!official || t.official))).map
    (fun t => (t.content_type, t.object_id)))

/-- `TagStem.objects.get_all(official=...)`: entity-to-stem-set mapping as an
association list in key order. -/
def get_all (s : Store) (official : Bool) : List (Entity × List Nat) :=
  (entityKeys s official).map (fun e => (e, stemsFor s official e))

/-- `TagStem.objects.get_for_model(model, official=...)`. -/
def get_for_model (s : Store) (ct : Nat) (official : Bool) :
    List (Entity × List Nat) :=
  (entityKeysForCT s ct official).map (fun e => (e, stemsFor s official e))

/-- The universe chosen by `similar_objects`: same-type entities or all tagged
entities. -/
def simUniverse (s : Store) (e : Entity) (same_type official : Bool) :
    List (Entity × List Nat) :=
  if same_type then get_for_model s e.1 official else get_all s official

/-- Set intersection on stem-id lists (`s & self_stems`). -/
def setInter (a b : List Nat) : List Nat := a.filter (fun x => b.contains x)

/-- Set symmetric difference on stem-id lists (`s ^ self_stems`); on
duplicate-free lists its length is the size of the symmetric difference. -/
def setSymmDiff (a b : List Nat) : List Nat :=
  a.filter (fun x => !(b.contains x)) ++ b.filter (fun x => !(a.contains x))

/-- The unsorted `distance` list of `similar_objects`: every other entity of
the universe sharing at least one stem with the target, paired with the size
of the symmetric difference, in universe order.  Empty when the target is not
a key of the universe (that case raises instead, see
`TaggableBase.similar_objects`). -/
def distanceList (s : Store) (e : Entity) (same_type official : Bool) :
    List (Entity × Nat) :=
  let stems := simUniverse s e same_type official
  match stems.find? (fun p => p.1 == e) with
  | none => []
  | some p =>
    (stems.filter (fun q => !(q.1 == e))).filterMap (fun q =>
      if setInter q.2 p.2 = [] then none
      else some (q.1, (setSymmDiff q.2 p.2).length))

/-- Ascending-distance comparison used by `distance.sort(key=lambda e: e[1])`. -/
def distLE (a b : Entity × Nat) : Prop := a.2 ≤ b.2

instance : DecidableRel distLE := fun a b => Nat.decLe a.2 b.2

/-- `TaggableBase.similar_objects(same_type, official)`: reading the target's
own stem set out of the universe raises `KeyError` when absent; otherwise the
distance list is sorted ascending with Python's stable sort. -/
def TaggableBase.similar_objects (s : Store) (e : Entity)
    (same_type official : Bool) : Except String (List (Entity × Nat)) :=
  match (simUniverse s e same_type official).find? (fun p => p.1 == e) with
  | none => .error "KeyError"
  | some _ =>
    .ok (List.insertionSort distLE (distanceList s e same_type official))

/-- Ordering of entity references, for stating how ties are (not) broken. -/
def entRefLE (a b : Entity) : Prop := a.1 < b.1 ∨ (a.1 = b.1 ∧ a.2 ≤ b.2)

instance : DecidableRel entRefLE := fun a b => by
  unfold entRefLE
  infer_instance

/-- The observable steps of `Taggable.save` (the default-tags synchronizer):
an `untag_all(author=...)` call, a `tag(names, language, author)` call, and
the entity's own persistence write (`super().save()`). -/
inductive SyncEvent where
  | untagAllEv (author : Nat)
  | tagEv (names : String) (language author : Nat)
  | persistEv
deriving DecidableEq, Repr

/-- `Taggable.save` as its trace of steps.  The default-tags field is first
normalized to a canonical comma-joined string; `new` is Python
`not bool(self.pk)` (true for `None` or `0`).  An existing entity is
untagged-by-author and re-tagged before `super().save()`; a new entity is
persisted first and tagged after. -/
def Taggable.save (pk : Option Nat) (default_tags : String)
    (language author : Nat) : List SyncEvent :=
  let dt := String.mk (List.intercalate [',', ' ']
    ((parse_tag_input default_tags).map String.data))
  let isNew : Bool := match pk with | none => true | some k => k == 0
  if isNew then
    [SyncEvent.persistEv, SyncEvent.tagEv dt language author]
  else
    [SyncEvent.untagAllEv author, SyncEvent.tagEv dt language author,
     SyncEvent.persistEv]

/-- The stem row with primary key `i`, if any. -/
def stemFind (s : Store) (i : Nat) : Option Stem :=
  s.stems.find? (fun st => st.id == i)

/-- The tag row with primary key `i`, if any. -/
def tagFind (s : Store) (i : Option Nat) : Option Tag :=
  s.tags.find? (fun t => t.id == i)

/-- Well-formedness of the store: stem counts equal live reference counts,
primary keys are unique and below the auto-increment counters, stem keys are
unique, every persisted tag row has a primary key and a live stem. -/
def StoreInv (s : Store) : Prop :=
  (∀ st ∈ s.stems, st.tag_count = refs s st.id) ∧
  (s.stems.map Stem.id).Nodup ∧
  (s.stems.map (fun st => (st.name, st.language))).Nodup ∧
  (∀ st ∈ s.stems, st.id < s.nextStemId) ∧
  (s.tags.map Tag.id).Nodup ∧
  (∀ t ∈ s.tags, t.id.getD s.nextTagId < s.nextTagId) ∧
  (∀ t ∈ s.tags, ∃ st ∈ s.stems, t.stem = some st.id)

instance : DecidablePred StoreInv := fun s => by
  unfold StoreInv
  infer_instance

/-- An in-memory edit of a loaded tag row before re-saving: the editable
fields `name`, `language`, `author` and `official` get new values; the
primary key and the stem pointer are untouched (`stem` is `editable=False`).
-/
def editTag (t : Tag) (n : String) (l a : Nat) (o : Bool) : Tag :=
  {t with name := n, language := l, author := a, official := o}

/-- The states reachable from the empty store by the public operations:
tagging, untagging (including an aborted untag loop, which keeps its earlier
deletions), bulk untagging, re-saving an existing tag row with edited
name/language/author/official fields, and deleting a tag row (the
`post_delete` hook runs in every delete path). -/
inductive Reach (staff : Nat → Bool) : Store → Prop where
  | init : Reach staff Store.empty
  | tagStep {s s' : Store} {nm : String} {lg : LangRef} {au : AuthorRef}
      {ct oid : Nat} :
      Reach staff s → TaggableBase.tag staff s nm lg au ct oid = .ok s' →
      Reach staff s'
  | untagStep {s : Store} {nm : String} {lg : LangRef} {au : AuthorRef}
      {a l ct oid : Nat} :
      Reach staff s → tag_get_user au none = .ok (some a) →
      tag_get_language lg none = .ok (some l) →
      Reach staff (TaggableBase.untagRun s (parse_tag_input nm) l a ct oid).1
  | untagAllStep {s : Store} {nm : Option String} {lg : LangRef}
      {au : AuthorRef} {ct oid : Nat} :
      Reach staff s → Reach staff (TaggableBase.untag_all s nm lg au ct oid)
  | saveStep {s : Store} {t : Tag} {n : String} {l a : Nat} {o : Bool} :
      Reach staff s → t ∈ s.tags →
      Reach staff (Tag.save staff s (editTag t n l a o))
  | deleteStep {s : Store} {t : Tag} :
      Reach staff s → t ∈ s.tags → Reach staff (deleteTag s t.id)

/-- The key list of the universe chosen by `similar_objects`. -/
def univKeys (s : Store) (e : Entity) (same_type official : Bool) : List Entity :=
  if same_type then entityKeysForCT s e.1 official else entityKeys s official

/-- Staff flag used by the concrete examples: only author 0 is staff. -/
def exStaff : Nat → Bool := fun a => a == 0

/-- No author is staff. -/
def noStaff : Nat → Bool := fun _ => false

/-- The store reached from empty by `tag("a b", language 1, author 7)` on
entity `(0, 1)`. -/
def c1store : Store :=
  ⟨[⟨0, "a", 1, 1⟩, ⟨1, "b", 1, 1⟩],
   [⟨some 0, "a", 1, some 0, 7, false, 0, 1⟩,
    ⟨some 1, "b", 1, some 1, 7, false, 0, 1⟩], 2, 2⟩

/-- The store reached from empty by tagging entity `(0, 1)` with `"a"` in
language 1 by the staff author 0. -/
def c2store : Store :=
  TaggableBase.tagRun exStaff Store.empty ["a"] 1 0 0 1

/-- Entity `(0,1)` tagged red and blue, entity `(0,2)` tagged blue and green
(language 1, author 3), as in the specification scenario. -/
def c5store : Store :=
  TaggableBase.tagRun noStaff
    (TaggableBase.tagRun noStaff Store.empty ["red", "blue"] 1 3 0 1)
    ["blue", "green"] 1 3 0 2

/-- Entity `(1,7)` tagged "x" in language 5 by author 3 (the retag
scenario's starting point). -/
def c4store : Store :=
  TaggableBase.tagRun noStaff Store.empty ["x"] 5 3 1 7

/-! ### Generic list lemmas -/

theorem find?_key_of_nodup {α κ : Type} [DecidableEq κ] (f : α → κ)
    {l : List α} {x : α} (hnd : (l.map f).Nodup) (h : x ∈ l) :
    l.find? (fun y => f y == f x) = some x := by
  induction l with
  | nil => cases h
  | cons a rest ih =>
    simp only [List.map_cons, List.nodup_cons] at hnd
    rcases List.mem_cons.mp h with rfl | hx
    · simp [List.find?_cons]
    · have hne : f a ≠ f x := fun heq => hnd.1 (heq ▸ List.mem_map_of_mem f hx)
      have hfa : (f a == f x) = false := by simpa using hne
      simp only [List.find?_cons, hfa]
      exact ih hnd.2 hx

theorem map_ite_eq_self {α κ : Type} [DecidableEq κ] (f : α → κ)
    {l : List α} {k : κ} (g : α → α) (h : ∀ x ∈ l, f x ≠ k) :
    l.map (fun x => if f x == k then g x else x) = l := by
  have h2 : l.map (fun x => if f x == k then g x else x) = l.map id := by
    apply List.map_congr_left
    intro a ha
    have : (f a == k) = false := by simpa using h a ha
    simp [this]
  simpa using h2

theorem countP_map_ite {α κ : Type} [DecidableEq κ] (f : α → κ)
    {l : List α} {r t2 : α} {k : κ} (p : α → Bool)
    (hnd : (l.map f).Nodup) (hr : r ∈ l) (hrk : f r = k) :
    (l.map (fun x => if f x == k then t2 else x)).countP p
        + (if p r then 1 else 0)
      = l.countP p + (if p t2 then 1 else 0) := by
  induction l with
  | nil => cases hr
  | cons a rest ih =>
    simp only [List.map_cons, List.nodup_cons] at hnd
    rcases List.mem_cons.mp hr with rfl | hmem
    · have hfr : (f r == k) = true := by simpa using hrk
      have hrest : rest.map (fun x => if f x == k then t2 else x) = rest := by
        apply map_ite_eq_self
        intro x hx hxk
        apply hnd.1
        have hx2 : f x ∈ rest.map f := List.mem_map_of_mem f hx
        rwa [hxk, ← hrk] at hx2
      simp only [List.map_cons, hfr, if_true, hrest, List.countP_cons]
      omega
    · have hne : f a ≠ k := by
        intro heq
        apply hnd.1
        have hx2 : f r ∈ rest.map f := List.mem_map_of_mem f hmem
        rwa [hrk, ← heq] at hx2
      have hfa : (f a == k) = false := by simpa using hne
      have ihx := ih hnd.2 hmem
      have hstep : (fun x => if f x == k then t2 else x) a = a := by simp [hfa]
      simp only [List.map_cons, hstep, List.countP_cons]
      omega

theorem countP_filter_split {α : Type} (l : List α) (p q : α → Bool) :
    l.countP p = (l.filter q).countP p + (l.filter (fun a => !(q a))).countP p := by
  induction l with
  | nil => simp
  | cons a rest ih =>
    by_cases hq : q a
    · simp [List.filter_cons, hq, List.countP_cons, ih]
      omega
    · have hq2 : q a = false := by simpa using hq
      simp [List.filter_cons, hq2, List.countP_cons, ih]
      omega

theorem map_proj_ite {α β : Type} (g : α → β) (cond : α → Bool) (f : α → α)
    (l : List α) (hf : ∀ x, cond x = true → g (f x) = g x) :
    (l.map (fun x => if cond x then f x else x)).map g = l.map g := by
  rw [List.map_map]
  apply List.map_congr_left
  intro a ha
  by_cases h : cond a = true
  · simp [h, hf a h]
  · simp only [Function.comp_apply]
    rw [if_neg (by simpa using h)]

/-! ### Frame lemmas for the stem-count operations -/

theorem dec_count_tags (s : Store) (i : Nat) :
    (TagStem.dec_count s i).tags = s.tags := by
  unfold TagStem.dec_count
  split
  · rfl
  · split <;> rfl

theorem dec_count_nextStemId (s : Store) (i : Nat) :
    (TagStem.dec_count s i).nextStemId = s.nextStemId := by
  unfold TagStem.dec_count
  split
  · rfl
  · split <;> rfl

theorem dec_count_nextTagId (s : Store) (i : Nat) :
    (TagStem.dec_count s i).nextTagId = s.nextTagId := by
  unfold TagStem.dec_count
  split
  · rfl
  · split <;> rfl

theorem dec_count_notin {s : Store} {i : Nat}
    (h : ∀ st ∈ s.stems, st.id ≠ i) : TagStem.dec_count s i = s := by
  unfold TagStem.dec_count
  have hf : s.stems.find? (fun st => st.id == i) = none := by
    apply List.find?_eq_none.mpr
    intro st hst
    simpa using h st hst
  rw [hf]

theorem dec_count_stems_of_mem {s : Store} {st0 : Stem}
    (hnd : (s.stems.map Stem.id).Nodup) (hmem : st0 ∈ s.stems) :
    (TagStem.dec_count s st0.id).stems =
      if st0.tag_count > 1 then
        s.stems.map (fun x =>
          if x.id == st0.id then {x with tag_count := x.tag_count - 1} else x)
      else s.stems.filter (fun x => !(x.id == st0.id)) := by
  unfold TagStem.dec_count
  rw [find?_key_of_nodup Stem.id hnd hmem]
  by_cases h : st0.tag_count > 1 <;> simp [h]

theorem clean_stems_tags (s : Store) (t : Tag) :
    (clean_stems s t).tags = s.tags := by
  unfold clean_stems
  split
  · rw [dec_count_tags]
  · rfl

theorem clean_stems_nextStemId (s : Store) (t : Tag) :
    (clean_stems s t).nextStemId = s.nextStemId := by
  unfold clean_stems
  split
  · rw [dec_count_nextStemId]
  · rfl

theorem clean_stems_nextTagId (s : Store) (t : Tag) :
    (clean_stems s t).nextTagId = s.nextTagId := by
  unfold clean_stems
  split
  · rw [dec_count_nextTagId]
  · rfl

/-! ### Invariant preservation by deletions -/

theorem dec_count_eq_of_mem {s : Store} {st0 : Stem}
    (hnd : (s.stems.map Stem.id).Nodup) (hmem : st0 ∈ s.stems) :
    TagStem.dec_count s st0.id =
      if st0.tag_count > 1 then
        {s with stems := s.stems.map (fun x =>
          if x.id == st0.id then {x with tag_count := x.tag_count - 1} else x)}
      else {s with stems := s.stems.filter (fun x => !(x.id == st0.id))} := by
  unfold TagStem.dec_count
  rw [find?_key_of_nodup Stem.id hnd hmem]

theorem map_proj_congr {α β : Type} (g : α → β) (f : α → α) (l : List α)
    (hf : ∀ x ∈ l, g (f x) = g x) : (l.map f).map g = l.map g := by
  rw [List.map_map]
  apply List.map_congr_left
  intro a ha
  exact hf a ha

theorem decList_inv (pending : List Tag) :
    ∀ (s : Store),
    (∀ st ∈ s.stems, st.tag_count
        = refs s st.id + pending.countP (fun t => t.stem == some st.id)) →
    (s.stems.map Stem.id).Nodup →
    (s.stems.map (fun st => (st.name, st.language))).Nodup →
    (∀ st ∈ s.stems, st.id < s.nextStemId) →
    (s.tags.map Tag.id).Nodup →
    (∀ t ∈ s.tags, t.id.getD s.nextTagId < s.nextTagId) →
    (∀ t ∈ s.tags, ∃ st ∈ s.stems, t.stem = some st.id) →
    StoreInv (pending.foldl clean_stems s) := by
  induction pending with
  | nil =>
    intro s h1 h2 h3 h4 h5 h6 h7
    exact ⟨by simpa using h1, h2, h3, h4, h5, h6, h7⟩
  | cons t rest ih =>
    intro s h1 h2 h3 h4 h5 h6 h7
    simp only [List.foldl_cons]
    cases ht : t.stem with
    | none =>
      have hcs : clean_stems s t = s := by unfold clean_stems; rw [ht]
      rw [hcs]
      apply ih s _ h2 h3 h4 h5 h6 h7
      intro st hst
      have hx := h1 st hst
      rw [List.countP_cons] at hx
      simpa [ht] using hx
    | some sid =>
      have hcs : clean_stems s t = TagStem.dec_count s sid := by
        unfold clean_stems; rw [ht]
      rw [hcs]
      by_cases hex : ∃ st0 ∈ s.stems, st0.id = sid
      · obtain ⟨st0, hst0, hid⟩ := hex
        subst hid
        have hcount := h1 st0 hst0
        rw [List.countP_cons] at hcount
        have hind : (t.stem == some st0.id) = true := by simp [ht]
        rw [hind, if_pos rfl] at hcount
        rw [dec_count_eq_of_mem h2 hst0]
        by_cases hgt : st0.tag_count > 1
        · rw [if_pos hgt]
          set f : Stem → Stem :=
            fun x => if x.id == st0.id then {x with tag_count := x.tag_count - 1} else x
            with hf
          have hproj : (s.stems.map f).map Stem.id = s.stems.map Stem.id := by
            apply map_proj_congr
            intro x _
            rw [hf]
            by_cases hc : x.id = st0.id <;> simp [hc]
          have hkeys : (s.stems.map f).map (fun st => (st.name, st.language))
              = s.stems.map (fun st => (st.name, st.language)) := by
            apply map_proj_congr
            intro x _
            rw [hf]
            by_cases hc : x.id = st0.id <;> simp [hc]
          apply ih
          · intro st' hst'
            rcases List.mem_map.mp hst' with ⟨st, hst, rfl⟩
            by_cases hsame : st.id = st0.id
            · have heq : st = st0 := List.inj_on_of_nodup_map h2 hst hst0 hsame
              subst heq
              have hfval : f st = {st with tag_count := st.tag_count - 1} := by
                rw [hf]; simp
              rw [hfval]
              simp only [refs] at hcount ⊢
              omega
            · have hfval : f st = st := by rw [hf]; simp [hsame]
              rw [hfval]
              have hx := h1 st hst
              rw [List.countP_cons] at hx
              have hne : st0.id ≠ st.id := fun h => hsame h.symm
              have hind2 : (t.stem == some st.id) = false := by simp [ht, hne]
              rw [hind2, if_neg (by simp)] at hx
              simpa [refs] using hx
          · simpa [hproj] using h2
          · simpa [hkeys] using h3
          · intro st' hst'
            rcases List.mem_map.mp hst' with ⟨st, hst, rfl⟩
            have hkeep : (f st).id = st.id := by
              rw [hf]; by_cases hc : st.id = st0.id <;> simp [hc]
            rw [hkeep]
            exact h4 st hst
          · exact h5
          · exact h6
          · intro tg htg
            rcases h7 tg htg with ⟨st, hst, hstem⟩
            exact ⟨f st, List.mem_map_of_mem f hst,
              by rw [hstem]; congr 1; rw [hf]; by_cases hc : st.id = st0.id <;> simp [hc]⟩
        · rw [if_neg hgt]
          have hzero : refs s st0.id = 0 ∧ rest.countP (fun x => x.stem == some st0.id) = 0 := by
            omega
          apply ih
          · intro st' hst'
            have hmem2 := List.mem_filter.mp hst'
            have hne : st'.id ≠ st0.id := by simpa using hmem2.2
            have hx := h1 st' hmem2.1
            rw [List.countP_cons] at hx
            have hne2 : st0.id ≠ st'.id := fun h => hne h.symm
            have hind2 : (t.stem == some st'.id) = false := by simp [ht, hne2]
            rw [hind2, if_neg (by simp)] at hx
            simpa [refs] using hx
          · exact (List.Sublist.map Stem.id (List.filter_sublist s.stems)).nodup h2
          · exact (List.Sublist.map (fun st => (st.name, st.language))
              (List.filter_sublist s.stems)).nodup h3
          · intro st' hst'
            exact h4 st' (List.mem_filter.mp hst').1
          · exact h5
          · exact h6
          · intro tg htg
            rcases h7 tg htg with ⟨st, hst, hstem⟩
            by_cases hsame : st.id = st0.id
            · exfalso
              have hpos : 0 < refs s st0.id := by
                rw [refs]
                apply List.countP_pos_iff.mpr
                exact ⟨tg, htg, by simp [hstem, hsame]⟩
              omega
            · exact ⟨st, List.mem_filter.mpr ⟨hst, by simpa using hsame⟩, hstem⟩
      · push_neg at hex
        rw [dec_count_notin hex]
        apply ih s _ h2 h3 h4 h5 h6 h7
        intro st hst
        have hx := h1 st hst
        rw [List.countP_cons] at hx
        have hne : st.id ≠ sid := hex st hst
        have hne2 : sid ≠ st.id := fun h => hne h.symm
        have hind2 : (t.stem == some st.id) = false := by simp [ht, hne2]
        rw [hind2, if_neg (by simp)] at hx
        exact hx

theorem removeAndDec_inv {s : Store} (p : Tag → Bool) (h : StoreInv s) :
    StoreInv (removeAndDec s p) := by
  obtain ⟨h1, h2, h3, h4, h5, h6, h7⟩ := h
  unfold removeAndDec
  apply decList_inv
  · intro st hst
    have hsplit := countP_filter_split s.tags (fun t => t.stem == some st.id) p
    have hdoomed : (s.tags.filter p).countP (fun t => t.stem == some st.id)
        = List.countP (fun t => t.stem == some st.id) (s.tags.filter p) := rfl
    have := h1 st hst
    simp only [refs] at this ⊢
    omega
  · exact h2
  · exact h3
  · exact h4
  · exact (List.Sublist.map Tag.id (List.filter_sublist s.tags)).nodup h5
  · intro t ht
    exact h6 t (List.mem_filter.mp ht).1
  · intro t ht
    exact h7 t (List.mem_filter.mp ht).1

theorem deleteTag_inv {s : Store} (i : Option Nat) (h : StoreInv s) :
    StoreInv (deleteTag s i) :=
  removeAndDec_inv _ h

theorem untag_all_inv {s : Store} (nm : Option String) (lg : LangRef)
    (au : AuthorRef) (ct oid : Nat) (h : StoreInv s) :
    StoreInv (TaggableBase.untag_all s nm lg au ct oid) := by
  unfold TaggableBase.untag_all
  split
  · exact removeAndDec_inv _ h
  · exact h

theorem two_mem_length {α : Type} {l : List α} {a b : α}
    (ha : a ∈ l) (hb : b ∈ l) (hne : a ≠ b) : 2 ≤ l.length := by
  induction l with
  | nil => cases ha
  | cons c rest ih =>
    rcases List.mem_cons.mp ha with rfl | ha2
    · rcases List.mem_cons.mp hb with rfl | hb2
      · exact absurd rfl hne
      · have : 0 < rest.length := List.length_pos.mpr (List.ne_nil_of_mem hb2)
        simp only [List.length_cons]
        omega
    · have : 0 < rest.length := List.length_pos.mpr (List.ne_nil_of_mem ha2)
      simp only [List.length_cons]
      omega

theorem refs_eq_zero_of_top {s : Store}
    (h4 : ∀ st ∈ s.stems, st.id < s.nextStemId)
    (h7 : ∀ t ∈ s.tags, ∃ st ∈ s.stems, t.stem = some st.id) :
    refs s s.nextStemId = 0 := by
  rw [refs]
  apply List.countP_eq_zero.mpr
  intro t ht
  rcases h7 t ht with ⟨st, hst, hstem⟩
  have := h4 st hst
  simp only [hstem, beq_iff_eq, Option.some.injEq]
  omega

/-- Inserting a fresh row (primary key assigned from the counter) restores the
invariant, provided stem counts currently run one ahead of the live references
exactly on the new row's stem. -/
theorem persist_append_inv {s : Store} {t2 : Tag}
    (hcounts : ∀ st ∈ s.stems,
      st.tag_count = refs s st.id + (if t2.stem == some st.id then 1 else 0))
    (h2 : (s.stems.map Stem.id).Nodup)
    (h3 : (s.stems.map (fun st => (st.name, st.language))).Nodup)
    (h4 : ∀ st ∈ s.stems, st.id < s.nextStemId)
    (h5 : (s.tags.map Tag.id).Nodup)
    (h6 : ∀ t ∈ s.tags, t.id.getD s.nextTagId < s.nextTagId)
    (h7 : ∀ t ∈ s.tags, ∃ st ∈ s.stems, t.stem = some st.id)
    (h7new : ∃ st ∈ s.stems, t2.stem = some st.id) :
    StoreInv {s with tags := s.tags ++ [{t2 with id := some s.nextTagId}],
                     nextTagId := s.nextTagId + 1} := by
  refine ⟨?_, h2, h3, h4, ?_, ?_, ?_⟩
  · intro st hst
    have hx := hcounts st hst
    simp only [refs, List.countP_append, List.countP_cons, List.countP_nil] at hx ⊢
    simpa using hx
  · simp only [List.map_append, List.map_cons, List.map_nil]
    rw [List.nodup_append]
    refine ⟨h5, List.nodup_singleton _, ?_⟩
    intro x hx
    rcases List.mem_map.mp hx with ⟨t, ht, rfl⟩
    have hx2 := h6 t ht
    simp only [List.mem_singleton]
    intro hcon
    rw [hcon] at hx2
    simp at hx2
  · intro t ht
    rcases List.mem_append.mp ht with hin | hnew
    · have hx := h6 t hin
      cases hid : t.id with
      | none => rw [hid] at hx; simp at hx
      | some j =>
        rw [hid] at hx
        simp only [Option.getD_some] at hx ⊢
        omega
    · have heq : t = {t2 with id := some s.nextTagId} := by simpa using hnew
      rw [heq]
      simp
  · intro t ht
    rcases List.mem_append.mp ht with hin | hnew
    · exact h7 t hin
    · have heq : t = {t2 with id := some s.nextTagId} := by simpa using hnew
      rcases h7new with ⟨st, hst, hstem⟩
      exact ⟨st, hst, by rw [heq]; exact hstem⟩

/-- Updating the row with primary key `i` in place restores the invariant,
provided stem counts currently anticipate moving that row's reference from
its old stem to the new row value's stem. -/
theorem persist_replace_inv {s : Store} {r0 t2 : Tag} {i : Nat}
    (hmem : r0 ∈ s.tags) (hr0 : r0.id = some i) (ht2 : t2.id = some i)
    (hcounts : ∀ st ∈ s.stems,
      st.tag_count + (if r0.stem == some st.id then 1 else 0)
        = refs s st.id + (if t2.stem == some st.id then 1 else 0))
    (h2 : (s.stems.map Stem.id).Nodup)
    (h3 : (s.stems.map (fun st => (st.name, st.language))).Nodup)
    (h4 : ∀ st ∈ s.stems, st.id < s.nextStemId)
    (h5 : (s.tags.map Tag.id).Nodup)
    (h6 : ∀ t ∈ s.tags, t.id.getD s.nextTagId < s.nextTagId)
    (h7other : ∀ t ∈ s.tags, t ≠ r0 → ∃ st ∈ s.stems, t.stem = some st.id)
    (h7new : ∃ st ∈ s.stems, t2.stem = some st.id) :
    StoreInv {s with tags := s.tags.map (fun x => if x.id == some i then t2 else x)} := by
  have hproj : (s.tags.map (fun x => if x.id == some i then t2 else x)).map Tag.id
      = s.tags.map Tag.id := by
    apply map_proj_congr
    intro x _
    by_cases hc : x.id = some i
    · simp [hc, ht2]
    · simp [hc]
  refine ⟨?_, h2, h3, h4, ?_, ?_, ?_⟩
  · intro st hst
    have hmix := hcounts st hst
    have hcp := @countP_map_ite Tag (Option Nat) _ Tag.id s.tags r0 t2 (some i)
      (fun x => x.stem == some st.id) h5 hmem hr0
    have hcp2 : (s.tags.map (fun x => if x.id == some i then t2 else x)).countP
          (fun x => x.stem == some st.id)
        + (if r0.stem == some st.id then 1 else 0)
      = s.tags.countP (fun x => x.stem == some st.id)
        + (if t2.stem == some st.id then 1 else 0) := by
      simpa using hcp
    simp only [refs] at hmix ⊢
    omega
  · show ((s.tags.map (fun x => if x.id == some i then t2 else x)).map Tag.id).Nodup
    rw [hproj]
    exact h5
  · intro t ht
    rcases List.mem_map.mp ht with ⟨x, hx, rfl⟩
    by_cases hc : x.id = some i
    · have hxi : (x.id == some i) = true := by simp [hc]
      rw [if_pos hxi, ht2]
      have hx2 := h6 x hx
      rw [hc] at hx2
      simpa using hx2
    · have hxi : (x.id == some i) = false := by simpa using hc
      rw [if_neg (by simp [hxi])]
      exact h6 x hx
  · intro t ht
    rcases List.mem_map.mp ht with ⟨x, hx, rfl⟩
    by_cases hc : x.id = some i
    · have hxi : (x.id == some i) = true := by simp [hc]
      rw [if_pos hxi]
      exact h7new
    · have hxi : (x.id == some i) = false := by simpa using hc
      rw [if_neg (by simp [hxi])]
      apply h7other x hx
      intro hcon
      rw [hcon, hr0] at hc
      exact hc rfl

/-! ### Invariant preservation by `Tag.save` -/

theorem update_stem_eq_same {s : Store} {t1 : Tag} {st0 : Stem}
    (hgc : s.stems.find? (fun st => st.name == t1.name && st.language == t1.language) = some st0)
    (hguard : t1.stem = some st0.id) :
    Tag.update_stem s t1 = (s, t1) := by
  unfold Tag.update_stem get_or_create
  rw [hgc]
  simp [hguard]

theorem update_stem_eq_switch_found {s : Store} {t1 : Tag} {st0 : Stem}
    (hgc : s.stems.find? (fun st => st.name == t1.name && st.language == t1.language) = some st0)
    (hguard : t1.stem ≠ some st0.id) :
    Tag.update_stem s t1 =
      (TagStem.inc_count
        (match t1.stem with
         | some old => TagStem.dec_count s old
         | none => s) st0.id,
       {t1 with stem := some st0.id}) := by
  unfold Tag.update_stem get_or_create
  rw [hgc]
  simp [hguard]

theorem update_stem_eq_created {s : Store} {t1 : Tag}
    (hgc : s.stems.find? (fun st => st.name == t1.name && st.language == t1.language) = none)
    (hguard : t1.stem ≠ some s.nextStemId) :
    Tag.update_stem s t1 =
      (TagStem.inc_count
        (match t1.stem with
         | some old =>
           TagStem.dec_count {s with
             stems := s.stems ++ [⟨s.nextStemId, t1.name, t1.language, 0⟩],
             nextStemId := s.nextStemId + 1} old
         | none => {s with
             stems := s.stems ++ [⟨s.nextStemId, t1.name, t1.language, 0⟩],
             nextStemId := s.nextStemId + 1}) s.nextStemId,
       {t1 with stem := some s.nextStemId}) := by
  unfold Tag.update_stem get_or_create
  rw [hgc]
  simp [hguard]

theorem save_eq_insert {staff : Nat → Bool} {s : Store} {t : Tag} {S2 : Store} {T2 : Tag}
    (hus : Tag.update_stem s (if staff t.author then {t with official := true} else t) = (S2, T2))
    (hid : T2.id = none) :
    Tag.save staff s t =
      {S2 with tags := S2.tags ++ [{T2 with id := some S2.nextTagId}],
               nextTagId := S2.nextTagId + 1} := by
  unfold Tag.save Tag.saveT
  simp only [hus, hid]

theorem save_eq_replace {staff : Nat → Bool} {s : Store} {t : Tag} {S2 : Store} {T2 : Tag} {i : Nat}
    (hus : Tag.update_stem s (if staff t.author then {t with official := true} else t) = (S2, T2))
    (hid : T2.id = some i) :
    Tag.save staff s t =
      {S2 with tags := S2.tags.map (fun x => if x.id == some i then T2 else x)} := by
  unfold Tag.save Tag.saveT
  simp only [hus, hid]

theorem update_stem_id (s : Store) (t1 : Tag) :
    (Tag.update_stem s t1).2.id = t1.id := by
  unfold Tag.update_stem
  dsimp only
  split <;> rfl

theorem update_stem_official (s : Store) (t1 : Tag) :
    (Tag.update_stem s t1).2.official = t1.official := by
  unfold Tag.update_stem
  dsimp only
  split <;> rfl

theorem inc_count_tags (s : Store) (i : Nat) :
    (TagStem.inc_count s i).tags = s.tags := rfl

theorem refs_inc (s : Store) (i j : Nat) :
    refs (TagStem.inc_count s i) j = refs s j := rfl

theorem inc_stems_found {s : Store} (st0 : Stem) :
    (TagStem.inc_count s st0.id).stems.map Stem.id = s.stems.map Stem.id := by
  apply map_proj_congr
  intro x _
  by_cases hc : x.id = st0.id <;> simp [hc]

theorem inc_keys_found {s : Store} (i : Nat) :
    (TagStem.inc_count s i).stems.map (fun st => (st.name, st.language))
      = s.stems.map (fun st => (st.name, st.language)) := by
  apply map_proj_congr
  intro x _
  by_cases hc : x.id = i <;> simp [hc]

theorem update_then_insert_inv {s : Store} {t1 : Tag} {S2 : Store} {T2 : Tag}
    (h1 : ∀ st ∈ s.stems, st.tag_count = refs s st.id)
    (h2 : (s.stems.map Stem.id).Nodup)
    (h3 : (s.stems.map (fun st => (st.name, st.language))).Nodup)
    (h4 : ∀ st ∈ s.stems, st.id < s.nextStemId)
    (h5 : (s.tags.map Tag.id).Nodup)
    (h6 : ∀ t ∈ s.tags, t.id.getD s.nextTagId < s.nextTagId)
    (h7 : ∀ t ∈ s.tags, ∃ st ∈ s.stems, t.stem = some st.id)
    (hstem : t1.stem = none)
    (hus : Tag.update_stem s t1 = (S2, T2)) :
    StoreInv {S2 with tags := S2.tags ++ [{T2 with id := some S2.nextTagId}],
                      nextTagId := S2.nextTagId + 1} := by
  rcases hgc : s.stems.find? (fun st => st.name == t1.name && st.language == t1.language)
    with _ | st0
  · -- created: a fresh stem with id s.nextStemId, tag count goes 0 → 1
    have hguard : t1.stem ≠ some s.nextStemId := by rw [hstem]; simp
    have hspec := update_stem_eq_created hgc hguard
    rw [hstem] at hspec
    rw [hus, Prod.mk.injEq] at hspec
    obtain ⟨hS2, hT2⟩ := hspec
    subst hS2
    subst hT2
    have hstems : (TagStem.inc_count
        {s with stems := s.stems ++ [⟨s.nextStemId, t1.name, t1.language, 0⟩],
                nextStemId := s.nextStemId + 1} s.nextStemId).stems
        = s.stems ++ [⟨s.nextStemId, t1.name, t1.language, 1⟩] := by
      show (s.stems ++ [(⟨s.nextStemId, t1.name, t1.language, 0⟩ : Stem)]).map
        (fun x => if x.id == s.nextStemId then {x with tag_count := x.tag_count + 1} else x)
        = s.stems ++ [(⟨s.nextStemId, t1.name, t1.language, 1⟩ : Stem)]
      rw [List.map_append]
      congr 1
      · exact map_ite_eq_self Stem.id _ (fun x hx => Nat.ne_of_lt (h4 x hx))
      · simp
    apply @persist_append_inv
      (TagStem.inc_count
        {s with stems := s.stems ++ [⟨s.nextStemId, t1.name, t1.language, 0⟩],
                nextStemId := s.nextStemId + 1} s.nextStemId)
      {t1 with stem := some s.nextStemId}
    · intro st hst
      rw [hstems] at hst
      rcases List.mem_append.mp hst with hin | hnew
      · have hlt := h4 st hin
        have hne : s.nextStemId ≠ st.id := by omega
        simp only [refs_inc]
        simp [hne]
        simpa [refs] using h1 st hin
      · have heq : st = ⟨s.nextStemId, t1.name, t1.language, 1⟩ := by simpa using hnew
        rw [heq]
        have hz := refs_eq_zero_of_top h4 h7
        have hrr : refs (TagStem.inc_count
            {s with stems := s.stems ++ [(⟨s.nextStemId, t1.name, t1.language, 0⟩ : Stem)],
                    nextStemId := s.nextStemId + 1} s.nextStemId) s.nextStemId
            = refs s s.nextStemId := rfl
        simp [hrr, hz]
    · show ((TagStem.inc_count _ _).stems.map Stem.id).Nodup
      rw [hstems]
      simp only [List.map_append, List.map_cons, List.map_nil]
      rw [List.nodup_append]
      refine ⟨h2, List.nodup_singleton _, ?_⟩
      intro x hx
      rcases List.mem_map.mp hx with ⟨st, hst, rfl⟩
      have := h4 st hst
      simp only [List.mem_singleton]
      omega
    · show ((TagStem.inc_count _ _).stems.map (fun st => (st.name, st.language))).Nodup
      rw [hstems]
      simp only [List.map_append, List.map_cons, List.map_nil]
      rw [List.nodup_append]
      refine ⟨h3, List.nodup_singleton _, ?_⟩
      intro x hx
      rcases List.mem_map.mp hx with ⟨st, hst, rfl⟩
      have hnm := List.find?_eq_none.mp hgc st hst
      simp only [List.mem_singleton]
      intro hcon
      apply hnm
      have h11 : st.name = t1.name := congrArg Prod.fst hcon
      have h12 : st.language = t1.language := congrArg Prod.snd hcon
      simp [h11, h12]
    · intro st hst
      rw [hstems] at hst
      show st.id < s.nextStemId + 1
      rcases List.mem_append.mp hst with hin | hnew
      · have := h4 st hin
        omega
      · have heq : st = ⟨s.nextStemId, t1.name, t1.language, 1⟩ := by simpa using hnew
        rw [heq]
        simp
    · exact h5
    · exact h6
    · intro tg htg
      rcases h7 tg htg with ⟨st, hst, hstem2⟩
      refine ⟨st, ?_, hstem2⟩
      rw [hstems]
      exact List.mem_append_left _ hst
    · refine ⟨⟨s.nextStemId, t1.name, t1.language, 1⟩, ?_, rfl⟩
      rw [hstems]
      exact List.mem_append_right _ (by simp)
  · -- found st0: increment its count
    have hst0mem : st0 ∈ s.stems := List.mem_of_find?_eq_some hgc
    have hguard : t1.stem ≠ some st0.id := by rw [hstem]; simp
    have hspec := update_stem_eq_switch_found hgc hguard
    rw [hstem] at hspec
    rw [hus, Prod.mk.injEq] at hspec
    obtain ⟨hS2, hT2⟩ := hspec
    subst hS2
    subst hT2
    apply @persist_append_inv (TagStem.inc_count s st0.id)
      {t1 with stem := some st0.id}
    · intro st hst
      rcases List.mem_map.mp hst with ⟨stb, hstb, rfl⟩
      simp only [refs_inc]
      by_cases hci : stb.id = st0.id
      · have heq : stb = st0 := List.inj_on_of_nodup_map h2 hstb hst0mem hci
        subst heq
        simp
        have hx := h1 stb hstb
        simp [refs] at hx ⊢
        omega
      · have hci2 : st0.id ≠ stb.id := fun h => hci h.symm
        simp [hci, hci2]
        simpa [refs] using h1 stb hstb
    · show ((TagStem.inc_count s st0.id).stems.map Stem.id).Nodup
      rw [inc_stems_found st0]
      exact h2
    · show ((TagStem.inc_count s st0.id).stems.map (fun st => (st.name, st.language))).Nodup
      rw [inc_keys_found]
      exact h3
    · intro st hst
      rcases List.mem_map.mp hst with ⟨stb, hstb, rfl⟩
      show _ < s.nextStemId
      by_cases hc : stb.id = st0.id
      · simp only [hc, beq_self_eq_true, if_true]
        show st0.id < s.nextStemId
        rw [← hc]
        exact h4 stb hstb
      · have hcb : (stb.id == st0.id) = false := by simpa using hc
        rw [if_neg (by simp [hcb])]
        exact h4 stb hstb
    · exact h5
    · exact h6
    · intro tg htg
      rcases h7 tg htg with ⟨st, hst, hstem2⟩
      refine ⟨if st.id == st0.id then {st with tag_count := st.tag_count + 1} else st,
        List.mem_map_of_mem _ hst, ?_⟩
      by_cases hc : st.id = st0.id <;> simp [hc, hstem2]
    · refine ⟨if st0.id == st0.id then {st0 with tag_count := st0.tag_count + 1} else st0,
        List.mem_map_of_mem _ hst0mem, ?_⟩
      simp

theorem mem_two_refs (s : Store) {a b : Tag} {j : Nat}
    (ha : a ∈ s.tags) (hb : b ∈ s.tags) (hne : a ≠ b)
    (hsa : a.stem = some j) (hsb : b.stem = some j) : 2 ≤ refs s j := by
  rw [refs, List.countP_eq_length_filter]
  apply two_mem_length (a := a) (b := b) _ _ hne
  · exact List.mem_filter.mpr ⟨ha, by simp [hsa]⟩
  · exact List.mem_filter.mpr ⟨hb, by simp [hsb]⟩

theorem lt_of_map_id_eq {X Y : List Stem} {n : Nat}
    (h : X.map Stem.id = Y.map Stem.id) (hY : ∀ st ∈ Y, st.id < n) :
    ∀ st ∈ X, st.id < n := by
  intro st hst
  have hmm : st.id ∈ X.map Stem.id := List.mem_map_of_mem _ hst
  rw [h] at hmm
  rcases List.mem_map.mp hmm with ⟨stb, hstb, heq⟩
  rw [← heq]
  exact hY stb hstb

theorem live_of_map_id_eq {X Y : List Stem} (h : X.map Stem.id = Y.map Stem.id)
    {tags : List Tag} (hY : ∀ t ∈ tags, ∃ st ∈ Y, t.stem = some st.id) :
    ∀ t ∈ tags, ∃ st ∈ X, t.stem = some st.id := by
  intro t ht
  rcases hY t ht with ⟨st, hst, hstem⟩
  have hmm : st.id ∈ Y.map Stem.id := List.mem_map_of_mem _ hst
  rw [← h] at hmm
  rcases List.mem_map.mp hmm with ⟨stx, hstx, heq⟩
  exact ⟨stx, hstx, by rw [hstem, heq]⟩

theorem exists_id_of_map_id_eq {X Y : List Stem} (h : X.map Stem.id = Y.map Stem.id)
    {st : Stem} (hst : st ∈ Y) : ∃ stx ∈ X, stx.id = st.id := by
  have hmm : st.id ∈ Y.map Stem.id := List.mem_map_of_mem _ hst
  rw [← h] at hmm
  rcases List.mem_map.mp hmm with ⟨stx, hstx, heq⟩
  exact ⟨stx, hstx, heq⟩

theorem update_stem_eq_switch_found_some {s : Store} {t1 : Tag} {st0 : Stem} {old : Nat}
    (hgc : s.stems.find? (fun st => st.name == t1.name && st.language == t1.language) = some st0)
    (hguard : t1.stem ≠ some st0.id) (hstem : t1.stem = some old) :
    Tag.update_stem s t1 =
      (TagStem.inc_count (TagStem.dec_count s old) st0.id,
       {t1 with stem := some st0.id}) := by
  rw [update_stem_eq_switch_found hgc hguard, hstem]

theorem update_stem_eq_created_some {s : Store} {t1 : Tag} {old : Nat}
    (hgc : s.stems.find? (fun st => st.name == t1.name && st.language == t1.language) = none)
    (hguard : t1.stem ≠ some s.nextStemId) (hstem : t1.stem = some old) :
    Tag.update_stem s t1 =
      (TagStem.inc_count
        (TagStem.dec_count {s with
            stems := s.stems ++ [⟨s.nextStemId, t1.name, t1.language, 0⟩],
            nextStemId := s.nextStemId + 1} old) s.nextStemId,
       {t1 with stem := some s.nextStemId}) := by
  rw [update_stem_eq_created hgc hguard, hstem]

theorem update_then_replace_inv {s : Store} {t1 : Tag} {S2 : Store} {T2 : Tag}
    {r0 : Tag} {i : Nat}
    (h1 : ∀ st ∈ s.stems, st.tag_count = refs s st.id)
    (h2 : (s.stems.map Stem.id).Nodup)
    (h3 : (s.stems.map (fun st => (st.name, st.language))).Nodup)
    (h4 : ∀ st ∈ s.stems, st.id < s.nextStemId)
    (h5 : (s.tags.map Tag.id).Nodup)
    (h6 : ∀ t ∈ s.tags, t.id.getD s.nextTagId < s.nextTagId)
    (h7 : ∀ t ∈ s.tags, ∃ st ∈ s.stems, t.stem = some st.id)
    (hr0mem : r0 ∈ s.tags) (hidr : t1.id = r0.id) (hstemr : t1.stem = r0.stem)
    (hi : r0.id = some i)
    (hus : Tag.update_stem s t1 = (S2, T2)) :
    StoreInv {S2 with tags := S2.tags.map (fun x => if x.id == some i then T2 else x)} := by
  obtain ⟨stOld, hstOldmem, hstemlive⟩ := h7 r0 hr0mem
  have hstemold : t1.stem = some stOld.id := hstemr.trans hstemlive
  rcases hgc : s.stems.find? (fun st => st.name == t1.name && st.language == t1.language)
    with _ | st0
  · -- created: new stem at the top id, old stem decremented
    have hlt : stOld.id < s.nextStemId := h4 stOld hstOldmem
    have hguard : t1.stem ≠ some s.nextStemId := by
      rw [hstemold]
      intro hcon
      have : stOld.id = s.nextStemId := by simpa using hcon
      omega
    have hspec := update_stem_eq_created_some hgc hguard hstemold
    rw [hus, Prod.mk.injEq] at hspec
    obtain ⟨hS2, hT2⟩ := hspec
    subst hS2
    subst hT2
    have hrefs2 : ∀ (X : List Stem) (j : Nat),
        refs (TagStem.inc_count
          (Store.mk X s.tags (s.nextStemId + 1) s.nextTagId) s.nextStemId) j
          = refs s j := fun X j => rfl
    have hndext : (({s with
        stems := s.stems ++ [(⟨s.nextStemId, t1.name, t1.language, 0⟩ : Stem)],
        nextStemId := s.nextStemId + 1} : Store).stems.map Stem.id).Nodup := by
      show ((s.stems ++ [(⟨s.nextStemId, t1.name, t1.language, 0⟩ : Stem)]).map Stem.id).Nodup
      simp only [List.map_append, List.map_cons, List.map_nil]
      rw [List.nodup_append]
      refine ⟨h2, List.nodup_singleton _, ?_⟩
      intro x hx
      rcases List.mem_map.mp hx with ⟨st, hst, rfl⟩
      have := h4 st hst
      simp only [List.mem_singleton]
      omega
    have hmemext : stOld ∈ ({s with
        stems := s.stems ++ [(⟨s.nextStemId, t1.name, t1.language, 0⟩ : Stem)],
        nextStemId := s.nextStemId + 1} : Store).stems :=
      List.mem_append_left _ hstOldmem
    rw [dec_count_eq_of_mem hndext hmemext]
    have hne0 : (s.nextStemId == stOld.id) = false := by
      simp
      omega
    by_cases hgt : stOld.tag_count > 1
    · rw [if_pos hgt]
      have hstems : (TagStem.inc_count {({s with
            stems := s.stems ++ [(⟨s.nextStemId, t1.name, t1.language, 0⟩ : Stem)],
            nextStemId := s.nextStemId + 1} : Store) with
          stems := (({s with
            stems := s.stems ++ [(⟨s.nextStemId, t1.name, t1.language, 0⟩ : Stem)],
            nextStemId := s.nextStemId + 1} : Store).stems.map (fun x =>
              if x.id == stOld.id then {x with tag_count := x.tag_count - 1} else x))}
          s.nextStemId).stems
          = (s.stems.map (fun x =>
              if x.id == stOld.id then {x with tag_count := x.tag_count - 1} else x))
            ++ [(⟨s.nextStemId, t1.name, t1.language, 1⟩ : Stem)] := by
        show ((s.stems ++ [(⟨s.nextStemId, t1.name, t1.language, 0⟩ : Stem)]).map (fun x =>
            if x.id == stOld.id then {x with tag_count := x.tag_count - 1} else x)).map (fun x =>
            if x.id == s.nextStemId then {x with tag_count := x.tag_count + 1} else x)
          = (s.stems.map (fun x =>
              if x.id == stOld.id then {x with tag_count := x.tag_count - 1} else x))
            ++ [(⟨s.nextStemId, t1.name, t1.language, 1⟩ : Stem)]
        rw [List.map_append, List.map_append]
        congr 1
        · apply map_ite_eq_self Stem.id
          intro x hx
          rcases List.mem_map.mp hx with ⟨stb, hstb, rfl⟩
          have hlt2 := h4 stb hstb
          by_cases hc : stb.id = stOld.id <;> simp [hc] <;> omega
        · simp [hne0]
      apply @persist_replace_inv
        (TagStem.inc_count {({s with
            stems := s.stems ++ [(⟨s.nextStemId, t1.name, t1.language, 0⟩ : Stem)],
            nextStemId := s.nextStemId + 1} : Store) with
          stems := (({s with
            stems := s.stems ++ [(⟨s.nextStemId, t1.name, t1.language, 0⟩ : Stem)],
            nextStemId := s.nextStemId + 1} : Store).stems.map (fun x =>
              if x.id == stOld.id then {x with tag_count := x.tag_count - 1} else x))}
          s.nextStemId)
        r0 {t1 with stem := some s.nextStemId} i
        hr0mem hi (hidr.trans hi)
      · intro st hst
        rw [hstems] at hst
        rcases List.mem_append.mp hst with hin | hnew
        · rcases List.mem_map.mp hin with ⟨stb, hstb, rfl⟩
          have hcount := h1 stb hstb
          have hlt2 := h4 stb hstb
          by_cases hb1 : stb.id = stOld.id
          · have heq : stb = stOld := List.inj_on_of_nodup_map h2 hstb hstOldmem hb1
            subst heq
            have hnn : stb.id ≠ s.nextStemId := by omega
            have hnn2 : s.nextStemId ≠ stb.id := fun h => hnn h.symm
            simp [hstemlive, hnn, hnn2, hrefs2]
            omega
          · have hb1r : stOld.id ≠ stb.id := fun h => hb1 h.symm
            have hrne : r0.stem ≠ some stb.id := by
              rw [hstemlive]
              simp
              exact hb1r
            have hnn : stb.id ≠ s.nextStemId := by omega
            have hnn2 : s.nextStemId ≠ stb.id := fun h => hnn h.symm
            simp [hb1, hrne, hnn, hnn2, hrefs2]
            omega
        · have heq : st = ⟨s.nextStemId, t1.name, t1.language, 1⟩ := by simpa using hnew
          rw [heq]
          have hz := refs_eq_zero_of_top h4 h7
          have hrne : r0.stem ≠ some s.nextStemId := by
            rw [hstemlive]
            simp
            omega
          simp [hrne, hrefs2]
          omega
      · show ((TagStem.inc_count _ _).stems.map Stem.id).Nodup
        rw [hstems]
        simp only [List.map_append, List.map_cons, List.map_nil]
        rw [List.nodup_append]
        refine ⟨?_, List.nodup_singleton _, ?_⟩
        · rw [map_proj_congr Stem.id _ _
            (fun x _ => by by_cases hc : x.id = stOld.id <;> simp [hc])]
          exact h2
        · intro x hx
          rcases List.mem_map.mp hx with ⟨stm, hstm, rfl⟩
          rcases List.mem_map.mp hstm with ⟨stb, hstb, rfl⟩
          have := h4 stb hstb
          simp only [List.mem_singleton]
          by_cases hc : stb.id = stOld.id <;> simp [hc] <;> omega
      · show ((TagStem.inc_count _ _).stems.map (fun st => (st.name, st.language))).Nodup
        rw [hstems]
        simp only [List.map_append, List.map_cons, List.map_nil]
        rw [List.nodup_append]
        refine ⟨?_, List.nodup_singleton _, ?_⟩
        · rw [map_proj_congr (fun st : Stem => (st.name, st.language)) _ _
            (fun x _ => by by_cases hc : x.id = stOld.id <;> simp [hc])]
          exact h3
        · intro x hx
          rcases List.mem_map.mp hx with ⟨stm, hstm, rfl⟩
          rcases List.mem_map.mp hstm with ⟨stb, hstb, rfl⟩
          have hnm := List.find?_eq_none.mp hgc stb hstb
          simp only [List.mem_singleton]
          intro hcon
          apply hnm
          have hpair : ((fun x =>
              if x.id == stOld.id then {x with tag_count := x.tag_count - 1} else x) stb).name
                = stb.name
              ∧ ((fun x =>
              if x.id == stOld.id then {x with tag_count := x.tag_count - 1} else x) stb).language
                = stb.language := by
            by_cases hc : stb.id = stOld.id <;> simp [hc]
          have h11 : stb.name = t1.name := by
            rw [← hpair.1]
            exact congrArg Prod.fst hcon
          have h12 : stb.language = t1.language := by
            rw [← hpair.2]
            exact congrArg Prod.snd hcon
          simp [h11, h12]
      · intro st hst
        rw [hstems] at hst
        show st.id < s.nextStemId + 1
        rcases List.mem_append.mp hst with hin | hnew
        · rcases List.mem_map.mp hin with ⟨stb, hstb, rfl⟩
          have := h4 stb hstb
          by_cases hc : stb.id = stOld.id <;> simp [hc] <;> omega
        · have heq : st = ⟨s.nextStemId, t1.name, t1.language, 1⟩ := by simpa using hnew
          rw [heq]
          simp
      · exact h5
      · exact h6
      · intro t ht _
        rcases h7 t ht with ⟨st, hst, hstem2⟩
        refine ⟨(fun x => if x.id == stOld.id then {x with tag_count := x.tag_count - 1} else x) st,
          ?_, ?_⟩
        · rw [hstems]
          exact List.mem_append_left _ (List.mem_map_of_mem _ hst)
        · rw [hstem2]
          by_cases hc : st.id = stOld.id <;> simp [hc]
      · refine ⟨⟨s.nextStemId, t1.name, t1.language, 1⟩, ?_, rfl⟩
        rw [hstems]
        exact List.mem_append_right _ (by simp)
    · rw [if_neg hgt]
      have hrge : 1 ≤ refs s stOld.id := by
        rw [refs]
        apply List.countP_pos_iff.mpr
        exact ⟨r0, hr0mem, by simp [hstemlive]⟩
      have hcOld := h1 stOld hstOldmem
      have hrone : refs s stOld.id = 1 := by omega
      have hstems : (TagStem.inc_count {({s with
            stems := s.stems ++ [(⟨s.nextStemId, t1.name, t1.language, 0⟩ : Stem)],
            nextStemId := s.nextStemId + 1} : Store) with
          stems := (({s with
            stems := s.stems ++ [(⟨s.nextStemId, t1.name, t1.language, 0⟩ : Stem)],
            nextStemId := s.nextStemId + 1} : Store).stems.filter (fun x => !(x.id == stOld.id)))}
          s.nextStemId).stems
          = (s.stems.filter (fun x => !(x.id == stOld.id)))
            ++ [(⟨s.nextStemId, t1.name, t1.language, 1⟩ : Stem)] := by
        show ((s.stems ++ [(⟨s.nextStemId, t1.name, t1.language, 0⟩ : Stem)]).filter
            (fun x => !(x.id == stOld.id))).map (fun x =>
            if x.id == s.nextStemId then {x with tag_count := x.tag_count + 1} else x)
          = (s.stems.filter (fun x => !(x.id == stOld.id)))
            ++ [(⟨s.nextStemId, t1.name, t1.language, 1⟩ : Stem)]
        rw [List.filter_append]
        have hone : ([(⟨s.nextStemId, t1.name, t1.language, 0⟩ : Stem)].filter
            (fun x => !(x.id == stOld.id))) = [(⟨s.nextStemId, t1.name, t1.language, 0⟩ : Stem)] := by
          simp [hne0]
        rw [hone, List.map_append]
        congr 1
        · apply map_ite_eq_self Stem.id
          intro x hx
          have hx2 := (List.mem_filter.mp hx).1
          have := h4 x hx2
          omega
        · simp
      apply @persist_replace_inv
        (TagStem.inc_count {({s with
            stems := s.stems ++ [(⟨s.nextStemId, t1.name, t1.language, 0⟩ : Stem)],
            nextStemId := s.nextStemId + 1} : Store) with
          stems := (({s with
            stems := s.stems ++ [(⟨s.nextStemId, t1.name, t1.language, 0⟩ : Stem)],
            nextStemId := s.nextStemId + 1} : Store).stems.filter (fun x => !(x.id == stOld.id)))}
          s.nextStemId)
        r0 {t1 with stem := some s.nextStemId} i
        hr0mem hi (hidr.trans hi)
      · intro st hst
        rw [hstems] at hst
        rcases List.mem_append.mp hst with hin | hnew
        · have hstb := (List.mem_filter.mp hin).1
          have hbne : st.id ≠ stOld.id := by
            have := (List.mem_filter.mp hin).2
            simpa using this
          have hcount := h1 st hstb
          have hlt2 := h4 st hstb
          have hrne : r0.stem ≠ some st.id := by
            rw [hstemlive]
            simp
            exact fun h => hbne h.symm
          have hnn : s.nextStemId ≠ st.id := by omega
          simp [hrne, hnn, hrefs2]
          exact hcount
        · have heq : st = ⟨s.nextStemId, t1.name, t1.language, 1⟩ := by simpa using hnew
          rw [heq]
          have hz := refs_eq_zero_of_top h4 h7
          have hrne : r0.stem ≠ some s.nextStemId := by
            rw [hstemlive]
            simp
            omega
          simp [hrne, hrefs2]
          omega
      · show ((TagStem.inc_count _ _).stems.map Stem.id).Nodup
        rw [hstems]
        simp only [List.map_append, List.map_cons, List.map_nil]
        rw [List.nodup_append]
        refine ⟨(List.Sublist.map Stem.id (List.filter_sublist s.stems)).nodup h2,
          List.nodup_singleton _, ?_⟩
        intro x hx
        rcases List.mem_map.mp hx with ⟨stb, hstbf, rfl⟩
        have := h4 stb (List.mem_filter.mp hstbf).1
        simp only [List.mem_singleton]
        omega
      · show ((TagStem.inc_count _ _).stems.map (fun st => (st.name, st.language))).Nodup
        rw [hstems]
        simp only [List.map_append, List.map_cons, List.map_nil]
        rw [List.nodup_append]
        refine ⟨(List.Sublist.map (fun st : Stem => (st.name, st.language))
            (List.filter_sublist s.stems)).nodup h3,
          List.nodup_singleton _, ?_⟩
        intro x hx
        rcases List.mem_map.mp hx with ⟨stb, hstbf, rfl⟩
        have hnm := List.find?_eq_none.mp hgc stb (List.mem_filter.mp hstbf).1
        simp only [List.mem_singleton]
        intro hcon
        apply hnm
        have h11 : stb.name = t1.name := congrArg Prod.fst hcon
        have h12 : stb.language = t1.language := congrArg Prod.snd hcon
        simp [h11, h12]
      · intro st hst
        rw [hstems] at hst
        show st.id < s.nextStemId + 1
        rcases List.mem_append.mp hst with hin | hnew
        · have := h4 st (List.mem_filter.mp hin).1
          omega
        · have heq : st = ⟨s.nextStemId, t1.name, t1.language, 1⟩ := by simpa using hnew
          rw [heq]
          simp
      · exact h5
      · exact h6
      · intro t ht htne
        rcases h7 t ht with ⟨st, hst, hstem2⟩
        by_cases hb1 : st.id = stOld.id
        · exfalso
          have heq : st = stOld := List.inj_on_of_nodup_map h2 hst hstOldmem hb1
          subst heq
          have h2refs := mem_two_refs s ht hr0mem htne hstem2 hstemlive
          omega
        · refine ⟨st, ?_, hstem2⟩
          rw [hstems]
          apply List.mem_append_left
          exact List.mem_filter.mpr ⟨hst, by simpa using hb1⟩
      · refine ⟨⟨s.nextStemId, t1.name, t1.language, 1⟩, ?_, rfl⟩
        rw [hstems]
        exact List.mem_append_right _ (by simp)
  · -- found st0
    have hst0mem : st0 ∈ s.stems := List.mem_of_find?_eq_some hgc
    by_cases hguard : t1.stem = some st0.id
    · -- same stem: nothing changes but the row
      have hspec := update_stem_eq_same hgc hguard
      rw [hus, Prod.mk.injEq] at hspec
      obtain ⟨hS2, hT2⟩ := hspec
      subst hS2
      subst hT2
      apply @persist_replace_inv _ r0 _ _ hr0mem hi (hidr.trans hi)
      · intro st hst
        rw [hstemr]
        have := h1 st hst
        omega
      · exact h2
      · exact h3
      · exact h4
      · exact h5
      · exact h6
      · intro t ht _
        exact h7 t ht
      · refine ⟨stOld, hstOldmem, ?_⟩
        rw [hstemr]
        exact hstemlive
    · -- switch to another existing stem
      have hne : st0.id ≠ stOld.id := by
        intro hcon
        apply hguard
        rw [hstemold, hcon]
      have hspec := update_stem_eq_switch_found_some hgc hguard hstemold
      rw [hus, Prod.mk.injEq] at hspec
      obtain ⟨hS2, hT2⟩ := hspec
      subst hS2
      subst hT2
      rw [dec_count_eq_of_mem h2 hstOldmem]
      have hrefsrep : ∀ (X : List Stem) (j : Nat),
          refs (TagStem.inc_count {s with stems := X} st0.id) j = refs s j :=
        fun X j => rfl
      have hneb : stOld.id ≠ st0.id := fun h => hne h.symm
      by_cases hgt : stOld.tag_count > 1
      · rw [if_pos hgt]
        have hids : ((s.stems.map (fun x =>
              if x.id == stOld.id then {x with tag_count := x.tag_count - 1} else x)).map
              (fun x => if x.id == st0.id then {x with tag_count := x.tag_count + 1} else x)).map
              Stem.id = s.stems.map Stem.id := by
          rw [map_proj_congr Stem.id _ _
              (fun x _ => by by_cases hc : x.id = st0.id <;> simp [hc]),
            map_proj_congr Stem.id _ _
              (fun x _ => by by_cases hc : x.id = stOld.id <;> simp [hc])]
        apply @persist_replace_inv
          (TagStem.inc_count {s with stems := s.stems.map (fun x =>
            if x.id == stOld.id then {x with tag_count := x.tag_count - 1} else x)} st0.id)
          r0 {t1 with stem := some st0.id} i
          hr0mem hi (hidr.trans hi)
        · intro st hst
          have hst2 : st ∈ (s.stems.map (fun x =>
              if x.id == stOld.id then {x with tag_count := x.tag_count - 1} else x)).map
              (fun x => if x.id == st0.id then {x with tag_count := x.tag_count + 1} else x) := hst
          rcases List.mem_map.mp hst2 with ⟨stm, hstm, rfl⟩
          rcases List.mem_map.mp hstm with ⟨stb, hstb, rfl⟩
          have hcount := h1 stb hstb
          by_cases hb1 : stb.id = stOld.id
          · have heq : stb = stOld := List.inj_on_of_nodup_map h2 hstb hstOldmem hb1
            subst heq
            have hbne : stb.id ≠ st0.id := fun h => hne h.symm
            simp [hbne, hne, hstemlive, hrefsrep]
            omega
          · by_cases hb0 : stb.id = st0.id
            · have heq : stb = st0 := List.inj_on_of_nodup_map h2 hstb hst0mem hb0
              subst heq
              have hb1r : stOld.id ≠ stb.id := fun h => hb1 h.symm
              have hrne : r0.stem ≠ some stb.id := by
                rw [hstemlive]
                simp
                exact hb1r
              simp [hb1, hrne, hrefsrep]
              omega
            · have hb0r : st0.id ≠ stb.id := fun h => hb0 h.symm
              have hb1r : stOld.id ≠ stb.id := fun h => hb1 h.symm
              have hrne : r0.stem ≠ some stb.id := by
                rw [hstemlive]
                simp
                exact hb1r
              simp [hb1, hb0, hb0r, hrne, hrefsrep]
              omega
        · show (((s.stems.map (fun x =>
              if x.id == stOld.id then {x with tag_count := x.tag_count - 1} else x)).map
              (fun x => if x.id == st0.id then {x with tag_count := x.tag_count + 1} else x)).map
              Stem.id).Nodup
          rw [hids]
          exact h2
        · show (((s.stems.map (fun x =>
              if x.id == stOld.id then {x with tag_count := x.tag_count - 1} else x)).map
              (fun x => if x.id == st0.id then {x with tag_count := x.tag_count + 1} else x)).map
              (fun st => (st.name, st.language))).Nodup
          rw [map_proj_congr (fun st : Stem => (st.name, st.language)) _ _
              (fun x _ => by by_cases hc : x.id = st0.id <;> simp [hc]),
            map_proj_congr (fun st : Stem => (st.name, st.language)) _ _
              (fun x _ => by by_cases hc : x.id = stOld.id <;> simp [hc])]
          exact h3
        · show ∀ st ∈ (s.stems.map (fun x =>
              if x.id == stOld.id then {x with tag_count := x.tag_count - 1} else x)).map
              (fun x => if x.id == st0.id then {x with tag_count := x.tag_count + 1} else x),
              st.id < s.nextStemId
          exact lt_of_map_id_eq hids h4
        · exact h5
        · exact h6
        · intro t ht _
          exact live_of_map_id_eq hids h7 t ht
        · rcases exists_id_of_map_id_eq hids hst0mem with ⟨stx, hstx, heq⟩
          exact ⟨stx, hstx, by rw [heq]⟩
      · rw [if_neg hgt]
        have hrge : 1 ≤ refs s stOld.id := by
          rw [refs]
          apply List.countP_pos_iff.mpr
          exact ⟨r0, hr0mem, by simp [hstemlive]⟩
        have hcOld := h1 stOld hstOldmem
        have hrone : refs s stOld.id = 1 := by omega
        apply @persist_replace_inv
          (TagStem.inc_count {s with stems := s.stems.filter (fun x =>
            !(x.id == stOld.id))} st0.id)
          r0 {t1 with stem := some st0.id} i
          hr0mem hi (hidr.trans hi)
        · intro st hst
          have hst2 : st ∈ (s.stems.filter (fun x => !(x.id == stOld.id))).map
              (fun x => if x.id == st0.id then {x with tag_count := x.tag_count + 1} else x) := hst
          rcases List.mem_map.mp hst2 with ⟨stb, hstbf, rfl⟩
          have hstb := (List.mem_filter.mp hstbf).1
          have hbne : stb.id ≠ stOld.id := by
            have := (List.mem_filter.mp hstbf).2
            simpa using this
          have hcount := h1 stb hstb
          have hrne : r0.stem ≠ some stb.id := by
            rw [hstemlive]
            simp
            exact fun h => hbne h.symm
          by_cases hb0 : stb.id = st0.id
          · have heq : stb = st0 := List.inj_on_of_nodup_map h2 hstb hst0mem hb0
            subst heq
            simp [hrne, hrefsrep]
            omega
          · have hb0r : st0.id ≠ stb.id := fun h => hb0 h.symm
            simp [hb0, hb0r, hrne, hrefsrep]
            omega
        · show (((s.stems.filter (fun x => !(x.id == stOld.id))).map
              (fun x => if x.id == st0.id then {x with tag_count := x.tag_count + 1} else x)).map
              Stem.id).Nodup
          rw [map_proj_congr Stem.id _ _
              (fun x _ => by by_cases hc : x.id = st0.id <;> simp [hc])]
          exact (List.Sublist.map Stem.id (List.filter_sublist s.stems)).nodup h2
        · show (((s.stems.filter (fun x => !(x.id == stOld.id))).map
              (fun x => if x.id == st0.id then {x with tag_count := x.tag_count + 1} else x)).map
              (fun st => (st.name, st.language))).Nodup
          rw [map_proj_congr (fun st : Stem => (st.name, st.language)) _ _
              (fun x _ => by by_cases hc : x.id = st0.id <;> simp [hc])]
          exact (List.Sublist.map (fun st : Stem => (st.name, st.language))
            (List.filter_sublist s.stems)).nodup h3
        · intro st hst
          have hst2 : st ∈ (s.stems.filter (fun x => !(x.id == stOld.id))).map
              (fun x => if x.id == st0.id then {x with tag_count := x.tag_count + 1} else x) := hst
          rcases List.mem_map.mp hst2 with ⟨stb, hstbf, rfl⟩
          have hstb := (List.mem_filter.mp hstbf).1
          have hlt2 := h4 stb hstb
          show _ < s.nextStemId
          by_cases hb0 : stb.id = st0.id
          · simp only [hb0, beq_self_eq_true, if_true]
            show st0.id < s.nextStemId
            rw [← hb0]
            exact hlt2
          · have hcb : (stb.id == st0.id) = false := by simpa using hb0
            rw [if_neg (by simp [hcb])]
            exact hlt2
        · exact h5
        · exact h6
        · intro t ht htne
          rcases h7 t ht with ⟨st, hst, hstem2⟩
          by_cases hb1 : st.id = stOld.id
          · exfalso
            have heq : st = stOld := List.inj_on_of_nodup_map h2 hst hstOldmem hb1
            subst heq
            have h2refs := mem_two_refs s ht hr0mem htne hstem2 hstemlive
            omega
          · refine ⟨(fun x => if x.id == st0.id then {x with tag_count := x.tag_count + 1} else x)
              st, ?_, ?_⟩
            · apply List.mem_map_of_mem
              exact List.mem_filter.mpr ⟨hst, by simpa using hb1⟩
            · rw [hstem2]
              by_cases hb0 : st.id = st0.id <;> simp [hb0]
        · have hb1 : st0.id ≠ stOld.id := hne
          refine ⟨(fun x => if x.id == st0.id then {x with tag_count := x.tag_count + 1} else x)
            st0, ?_, ?_⟩
          · apply List.mem_map_of_mem
            exact List.mem_filter.mpr ⟨hst0mem, by simpa using hb1⟩
          · show Tag.stem {t1 with stem := some st0.id} = _
            simp

theorem save_inv (staff : Nat → Bool) {s : Store} {t : Tag} (hInv : StoreInv s)
    (hcase : (t.id = none ∧ t.stem = none)
      ∨ ∃ r0 ∈ s.tags, t.id = r0.id ∧ t.stem = r0.stem) :
    StoreInv (Tag.save staff s t) := by
  obtain ⟨h1, h2, h3, h4, h5, h6, h7⟩ := hInv
  rcases hP : Tag.update_stem s (if staff t.author then {t with official := true} else t)
    with ⟨S2, T2⟩
  have ht1id : Tag.id (if staff t.author then {t with official := true} else t) = t.id := by
    split <;> rfl
  have ht1stem : Tag.stem (if staff t.author then {t with official := true} else t)
      = t.stem := by
    split <;> rfl
  have hT2id : T2.id = t.id := by
    have hq := update_stem_id s (if staff t.author then {t with official := true} else t)
    rw [hP] at hq
    rw [hq]
    exact ht1id
  rcases hcase with ⟨hid0, hstem0⟩ | ⟨r0, hr0mem, hid0, hstem0⟩
  · rw [save_eq_insert hP (by rw [hT2id, hid0])]
    exact update_then_insert_inv h1 h2 h3 h4 h5 h6 h7 (by rw [ht1stem, hstem0]) hP
  · obtain ⟨i, hi⟩ : ∃ i, r0.id = some i := by
      have hb := h6 r0 hr0mem
      cases hh : r0.id with
      | none => rw [hh] at hb; simp at hb
      | some j => exact ⟨j, rfl⟩
    rw [save_eq_replace hP (by rw [hT2id, hid0, hi])]
    exact update_then_replace_inv h1 h2 h3 h4 h5 h6 h7 hr0mem
      (by rw [ht1id, hid0]) (by rw [ht1stem, hstem0]) hi hP

theorem tagRun_inv (staff : Nat → Bool) (names : List String) :
    ∀ {s : Store} (lang author ct oid : Nat), StoreInv s →
      StoreInv (TaggableBase.tagRun staff s names lang author ct oid) := by
  induction names with
  | nil => intro s _ _ _ _ h; exact h
  | cons n rest ih =>
    intro s lang author ct oid h
    show StoreInv (List.foldl _ s (n :: rest))
    rw [List.foldl_cons]
    exact ih lang author ct oid (save_inv staff h (Or.inl ⟨rfl, rfl⟩))

theorem untagRun_inv (names : List String) :
    ∀ {s : Store} (l a ct oid : Nat), StoreInv s →
      StoreInv (TaggableBase.untagRun s names l a ct oid).1 := by
  induction names with
  | nil => intro s _ _ _ _ h; exact h
  | cons n rest ih =>
    intro s l a ct oid h
    rw [TaggableBase.untagRun]
    split
    · exact ih l a ct oid h
    · exact ih l a ct oid (deleteTag_inv _ h)
    · exact h

/-- Every store reachable by the public operations is well-formed; in
particular each stem's `tag_count` equals its number of live referencing tag
rows. -/
theorem reach_inv {staff : Nat → Bool} {s : Store} (h : Reach staff s) :
    StoreInv s := by
  induction h with
  | init => decide
  | tagStep hr htag ih =>
    unfold TaggableBase.tag at htag
    split at htag
    · injection htag with hX
      subst hX
      exact tagRun_inv _ _ _ _ _ _ ih
    · simp at htag
  | untagStep hr hau hlg ih => exact untagRun_inv _ _ _ _ _ ih
  | untagAllStep hr ih => exact untag_all_inv _ _ _ _ _ ih
  | @saveStep s t n l a o hr hmem ih =>
    exact save_inv staff ih (Or.inr ⟨t, hmem, rfl, rfl⟩)
  | deleteStep hr hmem ih => exact deleteTag_inv _ ih

/-! ### Deduplication, association lookups and stable sorting -/

theorem mem_dedupFirstAux {α : Type} [DecidableEq α] (l : List α) :
    ∀ (seen : List α) (x : α), x ∈ dedupFirstAux seen l ↔ (x ∈ l ∧ x ∉ seen) := by
  induction l with
  | nil => intro seen x; simp [dedupFirstAux]
  | cons a rest ih =>
    intro seen x
    by_cases hs : seen.contains a
    · rw [dedupFirstAux, if_pos hs, ih]
      have ha : a ∈ seen := by simpa using hs
      constructor
      · rintro ⟨hx, hns⟩
        exact ⟨List.mem_cons_of_mem _ hx, hns⟩
      · rintro ⟨hx, hns⟩
        rcases List.mem_cons.mp hx with rfl | hx2
        · exact absurd ha hns
        · exact ⟨hx2, hns⟩
    · rw [dedupFirstAux, if_neg hs]
      constructor
      · intro hx
        rcases List.mem_cons.mp hx with rfl | hx2
        · exact ⟨List.mem_cons_self _ _, by simpa using hs⟩
        · rcases (ih _ _).mp hx2 with ⟨hx3, hns⟩
          refine ⟨List.mem_cons_of_mem _ hx3, ?_⟩
          intro hcon
          exact hns (List.mem_cons_of_mem _ hcon)
      · rintro ⟨hx, hns⟩
        rcases List.mem_cons.mp hx with rfl | hx2
        · exact List.mem_cons_self _ _
        · by_cases hxa : x = a
          · subst hxa
            exact List.mem_cons_self _ _
          · apply List.mem_cons_of_mem
            exact (ih _ _).mpr ⟨hx2, by simp [hxa, hns]⟩

theorem mem_dedupFirst {α : Type} [DecidableEq α] (l : List α) (x : α) :
    x ∈ dedupFirst l ↔ x ∈ l := by
  rw [dedupFirst, mem_dedupFirstAux]
  simp

theorem dedupFirstAux_nodup {α : Type} [DecidableEq α] (l : List α) :
    ∀ (seen : List α), (dedupFirstAux seen l).Nodup := by
  induction l with
  | nil => intro seen; simp [dedupFirstAux]
  | cons a rest ih =>
    intro seen
    by_cases hs : seen.contains a
    · rw [dedupFirstAux, if_pos hs]
      exact ih seen
    · rw [dedupFirstAux, if_neg hs]
      rw [List.nodup_cons]
      refine ⟨?_, ih (a :: seen)⟩
      intro hcon
      have := (mem_dedupFirstAux rest (a :: seen) a).mp hcon
      exact this.2 (List.mem_cons_self _ _)

theorem dedupFirst_nodup {α : Type} [DecidableEq α] (l : List α) :
    (dedupFirst l).Nodup := dedupFirstAux_nodup l []

theorem find?_pair_map {α β : Type} [DecidableEq α] {keys : List α} (f : α → β)
    {e : α} (he : e ∈ keys) :
    (keys.map (fun k => (k, f k))).find? (fun p => p.1 == e) = some (e, f e) := by
  induction keys with
  | nil => cases he
  | cons a rest ih =>
    rcases List.mem_cons.mp he with rfl | he2
    · simp [List.find?_cons]
    · by_cases hae : a = e
      · subst hae
        simp [List.find?_cons]
      · have : ((a, f a).1 == e) = false := by simpa using hae
        simp only [List.map_cons, List.find?_cons, this]
        exact ih he2

theorem find?_pair_map_none {α β : Type} [DecidableEq α] {keys : List α} (f : α → β)
    {e : α} (he : e ∉ keys) :
    (keys.map (fun k => (k, f k))).find? (fun p => p.1 == e) = none := by
  apply List.find?_eq_none.mpr
  intro p hp
  rcases List.mem_map.mp hp with ⟨k, hk, rfl⟩
  simp only [beq_iff_eq]
  intro hcon
  exact he (hcon ▸ hk)

instance : IsTotal (Entity × Nat) distLE := ⟨fun a b => Nat.le_total a.2 b.2⟩

instance : IsTrans (Entity × Nat) distLE := ⟨fun _ _ _ h1 h2 => Nat.le_trans h1 h2⟩

theorem simUniverse_eq (s : Store) (e : Entity) (same_type official : Bool) :
    simUniverse s e same_type official
      = (univKeys s e same_type official).map (fun k => (k, stemsFor s official k)) := by
  cases same_type <;> rfl

theorem univKeys_nodup (s : Store) (e : Entity) (same_type official : Bool) :
    (univKeys s e same_type official).Nodup := by
  cases same_type <;> exact dedupFirst_nodup _

theorem find?_pair_map_ent {β : Type} {keys : List Entity} (f : Entity → β)
    {e : Entity} (he : e ∈ keys) :
    (keys.map (fun k => (k, f k))).find? (fun p => p.1 == e) = some (e, f e) := by
  induction keys with
  | nil => cases he
  | cons a rest ih =>
    rcases List.mem_cons.mp he with rfl | he2
    · simp [List.find?_cons]
    · by_cases hae : a = e
      · subst hae
        simp [List.find?_cons]
      · have hb : ((a, f a).1 == e) = false := by simpa using hae
        simp only [List.map_cons, List.find?_cons, hb]
        exact ih he2

theorem mem_distanceList (s : Store) (e eo : Entity) (same_type official : Bool)
    (d : Nat) (he : e ∈ univKeys s e same_type official)
    (heo : eo ∈ univKeys s e same_type official) (hne : eo ≠ e) :
    (eo, d) ∈ distanceList s e same_type official ↔
      (setInter (stemsFor s official eo) (stemsFor s official e) ≠ [] ∧
       d = (setSymmDiff (stemsFor s official eo) (stemsFor s official e)).length) := by
  have hfind : (simUniverse s e same_type official).find? (fun p => p.1 == e)
      = some (e, stemsFor s official e) := by
    rw [simUniverse_eq]
    exact find?_pair_map_ent _ he
  unfold distanceList
  simp only [hfind]
  rw [List.mem_filterMap]
  constructor
  · rintro ⟨q, hq, hg⟩
    have hq1 := (List.mem_filter.mp hq).1
    rw [simUniverse_eq] at hq1
    rcases List.mem_map.mp hq1 with ⟨k, hk, rfl⟩
    by_cases hint : setInter (stemsFor s official k) (stemsFor s official e) = []
    · rw [if_pos hint] at hg
      cases hg
    · rw [if_neg hint] at hg
      have hk1 : k = eo := congrArg Prod.fst (Option.some.inj hg)
      subst hk1
      have hd : (setSymmDiff (stemsFor s official k) (stemsFor s official e)).length = d :=
        congrArg Prod.snd (Option.some.inj hg)
      exact ⟨hint, hd.symm⟩
  · rintro ⟨hint, rfl⟩
    refine ⟨(eo, stemsFor s official eo), ?_, ?_⟩
    · apply List.mem_filter.mpr
      refine ⟨?_, by simpa using hne⟩
      rw [simUniverse_eq]
      exact List.mem_map_of_mem _ heo
    · rw [if_neg hint]

/-- C5: for a target entity `e` in the chosen universe and any other entity
`eo` of that universe, `similar_objects` succeeds, returns a list sorted by
ascending distance, contains `eo` exactly when `eo` shares a stem with `e`
(entities sharing no stem are absent, not reported at maximum distance), and
pairs `eo` with the size of the symmetric difference of the two stem
sets. -/
theorem similar_objects_spec (s : Store) (e eo : Entity) (same_type official : Bool)
    (he : e ∈ univKeys s e same_type official)
    (heo : eo ∈ univKeys s e same_type official)
    (hne : eo ≠ e) :
    ∃ out, TaggableBase.similar_objects s e same_type official = Except.ok out ∧
      out.Sorted distLE ∧
      ((∃ d, (eo, d) ∈ out) ↔ setInter (stemsFor s official eo) (stemsFor s official e) ≠ []) ∧
      (setInter (stemsFor s official eo) (stemsFor s official e) ≠ [] →
        (eo, (setSymmDiff (stemsFor s official eo) (stemsFor s official e)).length) ∈ out) := by
  have hfind : (simUniverse s e same_type official).find? (fun p => p.1 == e)
      = some (e, stemsFor s official e) := by
    rw [simUniverse_eq]
    exact find?_pair_map_ent _ he
  have hperm := List.perm_insertionSort distLE (distanceList s e same_type official)
  refine ⟨List.insertionSort distLE (distanceList s e same_type official), ?_, ?_, ?_, ?_⟩
  · unfold TaggableBase.similar_objects
    rw [hfind]
  · exact List.sorted_insertionSort distLE _
  · constructor
    · rintro ⟨d, hd⟩
      have := hperm.mem_iff.mp hd
      exact ((mem_distanceList s e eo same_type official d he heo hne).mp this).1
    · intro hint
      refine ⟨(setSymmDiff (stemsFor s official eo) (stemsFor s official e)).length, ?_⟩
      apply hperm.mem_iff.mpr
      exact (mem_distanceList s e eo same_type official _ he heo hne).mpr ⟨hint, rfl⟩
  · intro hint
    apply hperm.mem_iff.mpr
    exact (mem_distanceList s e eo same_type official _ he heo hne).mpr ⟨hint, rfl⟩

theorem not_mem_entityKeys {s : Store} {e : Entity} (official : Bool)
    (h : ∀ t ∈ s.tags, ¬(t.content_type = e.1 ∧ t.object_id = e.2
      ∧ (official = true → t.official = true))) :
    e ∉ entityKeys s official := by
  intro hcon
  rw [entityKeys, mem_dedupFirst] at hcon
  rcases List.mem_map.mp hcon with ⟨t, ht, hpair⟩
  have ht2 := (List.mem_filter.mp ht).1
  have hvis := (List.mem_filter.mp ht).2
  apply h t ht2
  refine ⟨congrArg Prod.fst hpair, congrArg Prod.snd hpair, ?_⟩
  intro hof
  rw [hof] at hvis
  simpa using hvis

theorem not_mem_entityKeysForCT {s : Store} {e : Entity} (ct : Nat) (official : Bool)
    (h : ∀ t ∈ s.tags, ¬(t.content_type = e.1 ∧ t.object_id = e.2
      ∧ (official = true → t.official = true))) :
    e ∉ entityKeysForCT s ct official := by
  intro hcon
  rw [entityKeysForCT, mem_dedupFirst] at hcon
  rcases List.mem_map.mp hcon with ⟨t, ht, hpair⟩
  have ht2 := (List.mem_filter.mp ht).1
  have hvis := (List.mem_filter.mp ht).2
  apply h t ht2
  refine ⟨congrArg Prod.fst hpair, congrArg Prod.snd hpair, ?_⟩
  intro hof
  rw [hof] at hvis
  simp at hvis
  exact hvis.2

theorem find?_pair_map_none_ent {β : Type} {keys : List Entity} (f : Entity → β)
    {e : Entity} (he : e ∉ keys) :
    (keys.map (fun k => (k, f k))).find? (fun p => p.1 == e) = none := by
  apply List.find?_eq_none.mpr
  intro p hp
  rcases List.mem_map.mp hp with ⟨k, hk, rfl⟩
  simp only [beq_iff_eq]
  intro hcon
  exact he (hcon ▸ hk)

/-- C9: when no tag of the store matches the chosen scope for the target
entity (so the target is absent from the universe's key set), reading the
target's own stem set raises `KeyError` instead of returning an empty
list. -/
theorem similar_objects_keyerror (s : Store) (e : Entity) (same_type official : Bool)
    (h : ∀ t ∈ s.tags, ¬(t.content_type = e.1 ∧ t.object_id = e.2
      ∧ (official = true → t.official = true))) :
    TaggableBase.similar_objects s e same_type official = Except.error "KeyError" := by
  have hne : e ∉ univKeys s e same_type official := by
    cases same_type
    · exact not_mem_entityKeys official h
    · exact not_mem_entityKeysForCT e.1 official h
  have hfind : (simUniverse s e same_type official).find? (fun p => p.1 == e) = none := by
    rw [simUniverse_eq]
    exact find?_pair_map_none_ent _ hne
  unfold TaggableBase.similar_objects
  rw [hfind]

/-! ### Untagging -/

theorem decFold_tags (pending : List Tag) : ∀ (s : Store),
    (pending.foldl clean_stems s).tags = s.tags := by
  induction pending with
  | nil => intro s; rfl
  | cons t rest ih =>
    intro s
    rw [List.foldl_cons, ih, clean_stems_tags]

theorem removeAndDec_tags (s : Store) (p : Tag → Bool) :
    (removeAndDec s p).tags = s.tags.filter (fun t => !(p t)) := by
  unfold removeAndDec
  rw [decFold_tags]

theorem untagRun_noop (names : List String) : ∀ (s : Store) (l a ct oid : Nat),
    (∀ n ∈ names, s.tags.filter (untagMatches n l a ct oid) = []) →
    TaggableBase.untagRun s names l a ct oid = (s, false) := by
  induction names with
  | nil => intro s l a ct oid _; rfl
  | cons n rest ih =>
    intro s l a ct oid h
    rw [TaggableBase.untagRun, h n (List.mem_cons_self _ _)]
    exact ih s l a ct oid (fun m hm => h m (List.mem_cons_of_mem _ hm))

theorem or_and_distrib_bool (x y z : Bool) : ((x || y) && z) = (x && z || y && z) := by
  cases x <;> cases y <;> cases z <;> rfl

theorem untagRun_spec (names : List String) : ∀ (s : Store) (l a ct oid : Nat),
    (s.tags.map Tag.id).Nodup →
    (∀ n, (s.tags.filter (untagMatches n l a ct oid)).length ≤ 1) →
    (TaggableBase.untagRun s names l a ct oid).2 = false ∧
    (TaggableBase.untagRun s names l a ct oid).1.tags
      = s.tags.filter (fun t => !(names.contains t.name && untagRest l a ct oid t)) := by
  induction names with
  | nil =>
    intro s l a ct oid _ _
    refine ⟨rfl, ?_⟩
    show s.tags = s.tags.filter fun t =>
      !(([] : List String).contains t.name && untagRest l a ct oid t)
    simp
  | cons n rest ih =>
    intro s l a ct oid h5 huniq
    rw [TaggableBase.untagRun]
    rcases hm : s.tags.filter (untagMatches n l a ct oid) with _ | ⟨t0, rest2⟩
    · obtain ⟨hflag, htags⟩ := ih s l a ct oid h5 huniq
      refine ⟨hflag, ?_⟩
      rw [htags]
      apply List.filter_congr
      intro t ht
      have hnM : untagMatches n l a ct oid t = false := by
        rw [Bool.eq_false_iff]
        intro hcon
        have hmem : t ∈ s.tags.filter (untagMatches n l a ct oid) :=
          List.mem_filter.mpr ⟨ht, hcon⟩
        rw [hm] at hmem
        cases hmem
      have hexp : ((n :: rest).contains t.name && untagRest l a ct oid t)
          = (untagMatches n l a ct oid t || (rest.contains t.name && untagRest l a ct oid t)) := by
        rw [List.contains_cons, or_and_distrib_bool, untagMatches]
      rw [hexp, hnM, Bool.false_or]
    · rcases rest2 with _ | ⟨t1, rest3⟩
      · -- unique match t0 gets deleted
        have ht0f : t0 ∈ s.tags.filter (untagMatches n l a ct oid) := by
          rw [hm]
          exact List.mem_cons_self _ _
        have ht0 : t0 ∈ s.tags := (List.mem_filter.mp ht0f).1
        have ht0M : untagMatches n l a ct oid t0 = true := (List.mem_filter.mp ht0f).2
        have hs1tags : (deleteTag s t0.id).tags
            = s.tags.filter (fun t => !(t.id == t0.id)) := by
          unfold deleteTag
          rw [removeAndDec_tags]
        have h5b : ((deleteTag s t0.id).tags.map Tag.id).Nodup := by
          rw [hs1tags]
          exact (List.Sublist.map Tag.id (List.filter_sublist s.tags)).nodup h5
        have huniqb : ∀ m, ((deleteTag s t0.id).tags.filter
            (untagMatches m l a ct oid)).length ≤ 1 := by
          intro m
          rw [hs1tags]
          calc ((s.tags.filter (fun t => !(t.id == t0.id))).filter
                (untagMatches m l a ct oid)).length
              ≤ (s.tags.filter (untagMatches m l a ct oid)).length :=
                ((List.filter_sublist s.tags).filter _).length_le
            _ ≤ 1 := huniq m
        obtain ⟨hflag, htags⟩ := ih (deleteTag s t0.id) l a ct oid h5b huniqb
        refine ⟨hflag, ?_⟩
        rw [htags, hs1tags, List.filter_filter]
        apply List.filter_congr
        intro t ht
        have hiff : (t.id == t0.id) = untagMatches n l a ct oid t := by
          by_cases heq : t = t0
          · subst heq
            simp [ht0M]
          · have hneid : (t.id == t0.id) = false := by
              rw [Bool.eq_false_iff]
              intro hcon
              exact heq (List.inj_on_of_nodup_map h5 ht ht0 (by simpa using hcon))
            have hnM : untagMatches n l a ct oid t = false := by
              rw [Bool.eq_false_iff]
              intro hcon
              have hmem : t ∈ s.tags.filter (untagMatches n l a ct oid) :=
                List.mem_filter.mpr ⟨ht, hcon⟩
              rw [hm] at hmem
              exact heq (by simpa using hmem)
            rw [hneid, hnM]
        have hexp : ((n :: rest).contains t.name && untagRest l a ct oid t)
            = (untagMatches n l a ct oid t || (rest.contains t.name && untagRest l a ct oid t)) := by
          rw [List.contains_cons, or_and_distrib_bool, untagMatches]
        rw [hexp, hiff]
        cases untagMatches n l a ct oid t <;>
          cases rest.contains t.name && untagRest l a ct oid t <;> rfl
      · exfalso
        have := huniq n
        rw [hm] at this
        simp at this

/-- C7 core: with unique matches per name, `untag` succeeds, removes exactly
the matching rows, and is the identity when nothing matches. -/
theorem untag_spec (s : Store) (name : String) (l a ct oid : Nat)
    (h5 : (s.tags.map Tag.id).Nodup)
    (huniq : ∀ n, (s.tags.filter (untagMatches n l a ct oid)).length ≤ 1) :
    ∃ s2, TaggableBase.untag s name (LangRef.intLang l) (AuthorRef.authorObj a) ct oid
        = Except.ok s2 ∧
      s2.tags = s.tags.filter (fun t =>
        !((parse_tag_input name).contains t.name && untagRest l a ct oid t)) ∧
      ((∀ n ∈ parse_tag_input name, s.tags.filter (untagMatches n l a ct oid) = []) →
        s2 = s) := by
  obtain ⟨hflag, htags⟩ := untagRun_spec (parse_tag_input name) s l a ct oid h5 huniq
  refine ⟨(TaggableBase.untagRun s (parse_tag_input name) l a ct oid).1, ?_, htags, ?_⟩
  · unfold TaggableBase.untag
    simp only [tag_get_user, tag_get_language]
    rw [hflag]
    rfl
  · intro hnone
    rw [untagRun_noop _ s l a ct oid hnone]

/-! ### The default-tags synchronizer and untag_all -/

/-- C8: the default-tags synchronizer's `save` emits, for an existing entity
(primary key set and non-zero), untag-all then re-tag then the entity's own
persistence write; for a first-time creation (no primary key) it persists
first and tags afterwards. -/
theorem taggable_save_order (pk : Option Nat) (dt : String) (lang author : Nat) :
    (∀ k, pk = some k → k ≠ 0 →
      Taggable.save pk dt lang author
        = [SyncEvent.untagAllEv author,
           SyncEvent.tagEv (String.mk (List.intercalate [',', ' ']
             ((parse_tag_input dt).map String.data))) lang author,
           SyncEvent.persistEv]) ∧
    (pk = none →
      Taggable.save pk dt lang author
        = [SyncEvent.persistEv,
           SyncEvent.tagEv (String.mk (List.intercalate [',', ' ']
             ((parse_tag_input dt).map String.data))) lang author]) := by
  constructor
  · rintro k rfl hk
    unfold Taggable.save
    have : (k == 0) = false := by simpa using hk
    simp [this]
  · rintro rfl
    unfold Taggable.save
    simp

/-- C10: `untag_all` with an unresolvable author reference and a language
that is neither an int nor a Choice does not raise — both filters fall back
to `None`, are treated as absent, and the deletion removes the entity's tags
for every author and every language. -/
theorem untag_all_unresolvable (s : Store) (ct oid : Nat) :
    tag_get_user AuthorRef.unresolvable (some none) = Except.ok none ∧
    tag_get_language LangRef.otherLang (some none) = Except.ok none ∧
    ∀ t : Tag,
      t ∈ (TaggableBase.untag_all s none LangRef.otherLang
            AuthorRef.unresolvable ct oid).tags
        ↔ (t ∈ s.tags ∧ ¬(t.content_type = ct ∧ t.object_id = oid)) := by
  refine ⟨rfl, rfl, ?_⟩
  intro t
  have hu : TaggableBase.untag_all s none LangRef.otherLang AuthorRef.unresolvable ct oid
      = removeAndDec s (untagAllMatches none none none ct oid) := rfl
  rw [hu]
  constructor
  · intro ht
    rw [removeAndDec_tags] at ht
    have h1 := (List.mem_filter.mp ht).1
    have h2 := (List.mem_filter.mp ht).2
    refine ⟨h1, ?_⟩
    rintro ⟨hct, hoid⟩
    rw [untagAllMatches] at h2
    simp [hct, hoid] at h2
  · rintro ⟨h1, h2⟩
    rw [removeAndDec_tags]
    apply List.mem_filter.mpr
    refine ⟨h1, ?_⟩
    rw [untagAllMatches]
    by_cases hct : t.content_type = ct
    · by_cases hoid : t.object_id = oid
      · exact absurd ⟨hct, hoid⟩ h2
      · simp [hct, hoid]
    · simp [hct]

/-- C2 (amended): `Tag.save` only ever raises the `official` flag — the
saved row's flag is the disjunction of the incoming row's stored flag and
the author's staff status.  The code sets `official = True` when the author
is staff but never clears a stale or user-set `True` for a non-staff
author, so the flag is not recomputed from the author alone. -/
theorem save_official_monotone (staff : Nat → Bool) (s : Store) (t : Tag) :
    (Tag.saveT staff s t).2.official = (t.official || staff t.author) := by
  rcases hP : Tag.update_stem s (if staff t.author then {t with official := true} else t)
    with ⟨S2, T2⟩
  have hof := update_stem_official s
    (if staff t.author then {t with official := true} else t)
  rw [hP] at hof
  have hT2 : T2.official = (t.official || staff t.author) := by
    rw [hof]
    by_cases h : staff t.author <;> simp [h]
  unfold Tag.saveT
  simp only [hP]
  split <;> simpa using hT2

/-! ### The dec_count characterization -/

theorem find?_map_ite_ne {l : List Stem} {k j : Nat} (f : Stem → Stem)
    (hf : ∀ x, (f x).id = x.id) (hne : j ≠ k) :
    (l.map (fun x => if x.id == k then f x else x)).find? (fun y => y.id == j)
      = l.find? (fun y => y.id == j) := by
  induction l with
  | nil => rfl
  | cons a rest ih =>
    simp only [List.map_cons, List.find?_cons]
    have hid : ((if a.id == k then f a else a)).id = a.id := by
      by_cases hc : a.id = k <;> simp [hc, hf]
    rw [hid]
    by_cases hj : a.id = j
    · have : (a.id == j) = true := by simpa using hj
      rw [this]
      have hak : (a.id == k) = false := by
        simp
        omega
      rw [if_neg (by simp [hak])]
    · have : (a.id == j) = false := by simpa using hj
      rw [this]
      exact ih

theorem find?_filter_id_ne {l : List Stem} {k j : Nat} (hne : j ≠ k) :
    (l.filter (fun x => !(x.id == k))).find? (fun y => y.id == j)
      = l.find? (fun y => y.id == j) := by
  induction l with
  | nil => rfl
  | cons a rest ih =>
    by_cases hk : a.id = k
    · have hkb : (a.id == k) = true := by simpa using hk
      rw [List.filter_cons, if_neg (by simp [hkb])]
      rw [List.find?_cons]
      have : (a.id == j) = false := by
        simp
        omega
      rw [this]
      exact ih
    · have hkb : (a.id == k) = false := by simpa using hk
      rw [List.filter_cons, if_pos (by simp [hkb])]
      rw [List.find?_cons, List.find?_cons]
      by_cases hj : a.id = j
      · have : (a.id == j) = true := by simpa using hj
        rw [this]
      · have : (a.id == j) = false := by simpa using hj
        rw [this]
        exact ih

/-- C3 core: decrementing the stem `st` reduces its persisted count by one
when the count exceeds 1 and otherwise deletes the row; other stems are
untouched, and no stem row with this id and a zero count is ever left
behind. -/
theorem dec_count_spec (s : Store) (st : Stem)
    (hnd : (s.stems.map Stem.id).Nodup) (hmem : st ∈ s.stems) :
    (stemFind (TagStem.dec_count s st.id) st.id
        = if st.tag_count > 1 then some {st with tag_count := st.tag_count - 1}
          else none) ∧
    (∀ j, j ≠ st.id → stemFind (TagStem.dec_count s st.id) j = stemFind s j) ∧
    (∀ st2 ∈ (TagStem.dec_count s st.id).stems,
      ¬(st2.id = st.id ∧ st2.tag_count = 0)) := by
  rw [dec_count_eq_of_mem hnd hmem]
  by_cases hgt : st.tag_count > 1
  · rw [if_pos hgt]
    refine ⟨?_, ?_, ?_⟩
    · rw [if_pos hgt]
      show (s.stems.map (fun x =>
        if x.id == st.id then {x with tag_count := x.tag_count - 1} else x)).find?
          (fun y => y.id == st.id) = _
      have hmem2 : ({st with tag_count := st.tag_count - 1} : Stem)
          ∈ s.stems.map (fun x =>
            if x.id == st.id then {x with tag_count := x.tag_count - 1} else x) := by
        have := List.mem_map_of_mem (fun x =>
          if x.id == st.id then {x with tag_count := x.tag_count - 1} else x) hmem
        simpa using this
      have hnd2 : ((s.stems.map (fun x =>
          if x.id == st.id then {x with tag_count := x.tag_count - 1} else x)).map
          Stem.id).Nodup := by
        rw [map_proj_congr Stem.id _ _
          (fun x _ => by by_cases hc : x.id = st.id <;> simp [hc])]
        exact hnd
      have := find?_key_of_nodup Stem.id hnd2 hmem2
      simpa using this
    · intro j hj
      show (s.stems.map _).find? _ = _
      rw [stemFind]
      exact find?_map_ite_ne _ (fun x => rfl) hj
    · intro st2 hst2
      rcases List.mem_map.mp hst2 with ⟨stb, hstb, rfl⟩
      by_cases hc : stb.id = st.id
      · have heq : stb = st := List.inj_on_of_nodup_map hnd hstb hmem hc
        subst heq
        simp
        omega
      · simp [hc]
  · rw [if_neg hgt]
    refine ⟨?_, ?_, ?_⟩
    · rw [if_neg hgt]
      show (s.stems.filter (fun x => !(x.id == st.id))).find? (fun y => y.id == st.id) = _
      apply List.find?_eq_none.mpr
      intro x hx
      have := (List.mem_filter.mp hx).2
      simpa using this
    · intro j hj
      show (s.stems.filter _).find? _ = _
      rw [stemFind]
      exact find?_filter_id_ne hj
    · intro st2 hst2
      have := (List.mem_filter.mp hst2).2
      intro hcon
      rw [hcon.1] at this
      simp at this

/-! ### The retag behaviour of Tag.save -/

theorem find?_append_of_none {α : Type} {l1 l2 : List α} {p : α → Bool}
    (h : l1.find? p = none) : (l1 ++ l2).find? p = l2.find? p := by
  induction l1 with
  | nil => rfl
  | cons a rest ih =>
    cases hpa : p a with
    | false =>
      simp only [List.cons_append, List.find?_cons, hpa]
      apply ih
      simp only [List.find?_cons, hpa] at h
      exact h
    | true =>
      simp only [List.find?_cons, hpa] at h
      exact absurd h (by simp)

theorem find?_append_of_some {α : Type} {l1 l2 : List α} {p : α → Bool} {x : α}
    (h : l1.find? p = some x) : (l1 ++ l2).find? p = some x := by
  induction l1 with
  | nil => cases h
  | cons a rest ih =>
    cases hpa : p a with
    | false =>
      simp only [List.cons_append, List.find?_cons, hpa]
      apply ih
      simp only [List.find?_cons, hpa] at h
      exact h
    | true =>
      simp only [List.find?_cons, hpa] at h
      simp only [List.cons_append, List.find?_cons, hpa]
      simpa using h

theorem tagFind_replace {tags : List Tag} {t T2 : Tag} {i : Nat}
    (h5 : (tags.map Tag.id).Nodup) (hmem : t ∈ tags) (hid : t.id = some i)
    (hT2 : T2.id = some i) :
    (tags.map (fun x => if x.id == some i then T2 else x)).find?
      (fun y => y.id == some i) = some T2 := by
  have hmem2 : T2 ∈ tags.map (fun x => if x.id == some i then T2 else x) := by
    have him := List.mem_map_of_mem (fun x => if x.id == some i then T2 else x) hmem
    simpa [hid] using him
  have hnd2 : ((tags.map (fun x => if x.id == some i then T2 else x)).map Tag.id).Nodup := by
    rw [map_proj_congr Tag.id _ _ (fun x _ => by
      by_cases hc : x.id = some i
      · simp [hc, hT2]
      · simp [hc])]
    exact h5
  have hfk := find?_key_of_nodup Tag.id hnd2 hmem2
  rw [hT2] at hfk
  have hfe : (fun (y : Tag) => decide (y.id = some i))
      = (fun y : Tag => y.id == some i) := by
    funext y
    by_cases hc : y.id = some i <;> simp [hc]
  rw [show (fun (y : Tag) => y.id == some i)
      = (fun y : Tag => decide (y.id = some i)) from hfe.symm]
  exact hfk

/-- C4 core: re-saving an existing tag row whose `(name, language)` no longer
matches its stem's key decrements (or deletes) the old stem, resolves or
creates the stem for the new key, reassigns the row's stem to it and
increments its count; `official` is only ever raised. -/
theorem save_retag_spec (staff : Nat → Bool) (s : Store) (t : Tag) (stOld : Stem)
    (nNew : String) (lNew : Nat) (i : Nat)
    (hInv : StoreInv s) (hmem : t ∈ s.tags) (hid : t.id = some i)
    (hstem : t.stem = some stOld.id) (hstOld : stOld ∈ s.stems)
    (hkey : ¬(stOld.name = nNew ∧ stOld.language = lNew)) :
    (∃ tr, tagFind (Tag.save staff s {t with name := nNew, language := lNew}) (some i)
        = some tr ∧
      tr.stem = some (get_or_create s nNew lNew).2 ∧
      tr.name = nNew ∧ tr.language = lNew ∧
      tr.official = (t.official || staff t.author)) ∧
    (∃ str, stemFind (Tag.save staff s {t with name := nNew, language := lNew})
          (get_or_create s nNew lNew).2 = some str ∧
      str.name = nNew ∧ str.language = lNew ∧
      str.tag_count = (match s.stems.find? (fun st0 =>
          st0.name == nNew && st0.language == lNew) with
        | some st0 => st0.tag_count
        | none => 0) + 1) ∧
    (stemFind (Tag.save staff s {t with name := nNew, language := lNew}) stOld.id
      = if stOld.tag_count > 1 then some {stOld with tag_count := stOld.tag_count - 1}
        else none) := by
  obtain ⟨h1, h2, h3, h4, h5, h6, h7⟩ := hInv
  have hT1name : Tag.name (if staff (Tag.author {t with name := nNew, language := lNew})
      then {{t with name := nNew, language := lNew} with official := true}
      else {t with name := nNew, language := lNew}) = nNew := by
    split <;> rfl
  have hT1lang : Tag.language (if staff (Tag.author {t with name := nNew, language := lNew})
      then {{t with name := nNew, language := lNew} with official := true}
      else {t with name := nNew, language := lNew}) = lNew := by
    split <;> rfl
  have hT1stem : Tag.stem (if staff (Tag.author {t with name := nNew, language := lNew})
      then {{t with name := nNew, language := lNew} with official := true}
      else {t with name := nNew, language := lNew}) = some stOld.id := by
    split <;> exact hstem
  have hT1id : Tag.id (if staff (Tag.author {t with name := nNew, language := lNew})
      then {{t with name := nNew, language := lNew} with official := true}
      else {t with name := nNew, language := lNew}) = some i := by
    split <;> exact hid
  have hT1off : Tag.official (if staff (Tag.author {t with name := nNew, language := lNew})
      then {{t with name := nNew, language := lNew} with official := true}
      else {t with name := nNew, language := lNew}) = (t.official || staff t.author) := by
    by_cases h : staff t.author
    · rw [if_pos (by exact h)]
      simp [h]
    · rw [if_neg (by exact h)]
      simp [h]
  have hpred : (fun st : Stem => st.name ==
        Tag.name (if staff (Tag.author {t with name := nNew, language := lNew})
          then {{t with name := nNew, language := lNew} with official := true}
          else {t with name := nNew, language := lNew})
      && st.language ==
        Tag.language (if staff (Tag.author {t with name := nNew, language := lNew})
          then {{t with name := nNew, language := lNew} with official := true}
          else {t with name := nNew, language := lNew}))
      = (fun st : Stem => st.name == nNew && st.language == lNew) := by
    funext st
    rw [hT1name, hT1lang]
  rcases hP : Tag.update_stem s (if staff (Tag.author {t with name := nNew, language := lNew})
      then {{t with name := nNew, language := lNew} with official := true}
      else {t with name := nNew, language := lNew}) with ⟨S2, T2⟩
  have hT2id : T2.id = some i := by
    have hq := update_stem_id s (if staff (Tag.author {t with name := nNew, language := lNew})
      then {{t with name := nNew, language := lNew} with official := true}
      else {t with name := nNew, language := lNew})
    rw [hP] at hq
    rw [hq]
    exact hT1id
  rw [save_eq_replace hP hT2id]
  rcases hgc : s.stems.find? (fun st0 => st0.name == nNew && st0.language == lNew)
    with _ | st0
  · -- created
    have hgc2 : s.stems.find? (fun st => st.name ==
          Tag.name (if staff (Tag.author {t with name := nNew, language := lNew})
            then {{t with name := nNew, language := lNew} with official := true}
            else {t with name := nNew, language := lNew})
        && st.language ==
          Tag.language (if staff (Tag.author {t with name := nNew, language := lNew})
            then {{t with name := nNew, language := lNew} with official := true}
            else {t with name := nNew, language := lNew})) = none := by
      rw [hpred]
      exact hgc
    have hlt : stOld.id < s.nextStemId := h4 stOld hstOld
    have hguard : Tag.stem (if staff (Tag.author {t with name := nNew, language := lNew})
        then {{t with name := nNew, language := lNew} with official := true}
        else {t with name := nNew, language := lNew}) ≠ some s.nextStemId := by
      rw [hT1stem]
      intro hcon
      have : stOld.id = s.nextStemId := by simpa using hcon
      omega
    have hspec := update_stem_eq_created_some hgc2 hguard hT1stem
    rw [hP, Prod.mk.injEq] at hspec
    obtain ⟨hS2, hT2⟩ := hspec
    rw [hT1name, hT1lang] at hS2
    subst hS2
    subst hT2
    have hgoc : get_or_create s nNew lNew = ({s with
        stems := s.stems ++ [(⟨s.nextStemId, nNew, lNew, 0⟩ : Stem)],
        nextStemId := s.nextStemId + 1}, s.nextStemId) := by
      unfold get_or_create
      rw [hgc]
    have hndext : (({s with
        stems := s.stems ++ [(⟨s.nextStemId, nNew, lNew, 0⟩ : Stem)],
        nextStemId := s.nextStemId + 1} : Store).stems.map Stem.id).Nodup := by
      show ((s.stems ++ [(⟨s.nextStemId, nNew, lNew, 0⟩ : Stem)]).map Stem.id).Nodup
      simp only [List.map_append, List.map_cons, List.map_nil]
      rw [List.nodup_append]
      refine ⟨h2, List.nodup_singleton _, ?_⟩
      intro x hx
      rcases List.mem_map.mp hx with ⟨st, hst, rfl⟩
      have := h4 st hst
      simp only [List.mem_singleton]
      omega
    have hmemext : stOld ∈ ({s with
        stems := s.stems ++ [(⟨s.nextStemId, nNew, lNew, 0⟩ : Stem)],
        nextStemId := s.nextStemId + 1} : Store).stems :=
      List.mem_append_left _ hstOld
    rw [dec_count_eq_of_mem hndext hmemext]
    have hne0 : (s.nextStemId == stOld.id) = false := by
      simp
      omega
    by_cases hgt : stOld.tag_count > 1
    · rw [if_pos hgt]
      have hstems : (TagStem.inc_count {({s with
            stems := s.stems ++ [(⟨s.nextStemId, nNew, lNew, 0⟩ : Stem)],
            nextStemId := s.nextStemId + 1} : Store) with
          stems := (({s with
            stems := s.stems ++ [(⟨s.nextStemId, nNew, lNew, 0⟩ : Stem)],
            nextStemId := s.nextStemId + 1} : Store).stems.map (fun x =>
              if x.id == stOld.id then {x with tag_count := x.tag_count - 1} else x))}
          s.nextStemId).stems
          = (s.stems.map (fun x =>
              if x.id == stOld.id then {x with tag_count := x.tag_count - 1} else x))
            ++ [(⟨s.nextStemId, nNew, lNew, 1⟩ : Stem)] := by
        show ((s.stems ++ [(⟨s.nextStemId, nNew, lNew, 0⟩ : Stem)]).map (fun x =>
            if x.id == stOld.id then {x with tag_count := x.tag_count - 1} else x)).map (fun x =>
            if x.id == s.nextStemId then {x with tag_count := x.tag_count + 1} else x)
          = (s.stems.map (fun x =>
              if x.id == stOld.id then {x with tag_count := x.tag_count - 1} else x))
            ++ [(⟨s.nextStemId, nNew, lNew, 1⟩ : Stem)]
        rw [List.map_append, List.map_append]
        congr 1
        · apply map_ite_eq_self Stem.id
          intro x hx
          rcases List.mem_map.mp hx with ⟨stb, hstb, rfl⟩
          have hlt2 := h4 stb hstb
          by_cases hc : stb.id = stOld.id <;> simp [hc] <;> omega
        · simp [hne0]
      refine ⟨?_, ?_, ?_⟩
      · refine ⟨_, tagFind_replace h5 hmem hid hT1id, ?_, hT1name, hT1lang, hT1off⟩
        rw [hgoc]
      · refine ⟨⟨s.nextStemId, nNew, lNew, 1⟩, ?_, rfl, rfl, ?_⟩
        · rw [hgoc]
          show (TagStem.inc_count _ _).stems.find? _ = _
          rw [hstems]
          rw [find?_append_of_none]
          · simp
          · apply List.find?_eq_none.mpr
            intro x hx
            rcases List.mem_map.mp hx with ⟨stb, hstb, rfl⟩
            have hlt2 := h4 stb hstb
            by_cases hc : stb.id = stOld.id <;> simp [hc] <;> omega
        · rw [hgc]
      · rw [if_pos hgt]
        show (TagStem.inc_count _ _).stems.find? _ = _
        rw [hstems]
        rw [find?_append_of_some]
        have hmemd : ({stOld with tag_count := stOld.tag_count - 1} : Stem)
            ∈ s.stems.map (fun x =>
              if x.id == stOld.id then {x with tag_count := x.tag_count - 1} else x) := by
          have him := List.mem_map_of_mem (fun x =>
            if x.id == stOld.id then {x with tag_count := x.tag_count - 1} else x) hstOld
          simpa using him
        have hndd : ((s.stems.map (fun x =>
            if x.id == stOld.id then {x with tag_count := x.tag_count - 1} else x)).map
            Stem.id).Nodup := by
          rw [map_proj_congr Stem.id _ _
            (fun x _ => by by_cases hc : x.id = stOld.id <;> simp [hc])]
          exact h2
        have := find?_key_of_nodup Stem.id hndd hmemd
        simpa using this
    · rw [if_neg hgt]
      have hstems : (TagStem.inc_count {({s with
            stems := s.stems ++ [(⟨s.nextStemId, nNew, lNew, 0⟩ : Stem)],
            nextStemId := s.nextStemId + 1} : Store) with
          stems := (({s with
            stems := s.stems ++ [(⟨s.nextStemId, nNew, lNew, 0⟩ : Stem)],
            nextStemId := s.nextStemId + 1} : Store).stems.filter (fun x =>
              !(x.id == stOld.id)))}
          s.nextStemId).stems
          = (s.stems.filter (fun x => !(x.id == stOld.id)))
            ++ [(⟨s.nextStemId, nNew, lNew, 1⟩ : Stem)] := by
        show ((s.stems ++ [(⟨s.nextStemId, nNew, lNew, 0⟩ : Stem)]).filter
            (fun x => !(x.id == stOld.id))).map (fun x =>
            if x.id == s.nextStemId then {x with tag_count := x.tag_count + 1} else x)
          = (s.stems.filter (fun x => !(x.id == stOld.id)))
            ++ [(⟨s.nextStemId, nNew, lNew, 1⟩ : Stem)]
        rw [List.filter_append]
        have hone : ([(⟨s.nextStemId, nNew, lNew, 0⟩ : Stem)].filter
            (fun x => !(x.id == stOld.id))) = [(⟨s.nextStemId, nNew, lNew, 0⟩ : Stem)] := by
          simp [hne0]
        rw [hone, List.map_append]
        congr 1
        · apply map_ite_eq_self Stem.id
          intro x hx
          have hx2 := (List.mem_filter.mp hx).1
          have := h4 x hx2
          omega
        · simp
      refine ⟨?_, ?_, ?_⟩
      · refine ⟨_, tagFind_replace h5 hmem hid hT1id, ?_, hT1name, hT1lang, hT1off⟩
        rw [hgoc]
      · refine ⟨⟨s.nextStemId, nNew, lNew, 1⟩, ?_, rfl, rfl, ?_⟩
        · rw [hgoc]
          show (TagStem.inc_count _ _).stems.find? _ = _
          rw [hstems]
          rw [find?_append_of_none]
          · simp
          · apply List.find?_eq_none.mpr
            intro x hx
            have hx2 := (List.mem_filter.mp hx).1
            have := h4 x hx2
            simp
            omega
        · rw [hgc]
      · rw [if_neg hgt]
        show (TagStem.inc_count _ _).stems.find? _ = _
        rw [hstems]
        rw [find?_append_of_none]
        · simp
          omega
        · apply List.find?_eq_none.mpr
          intro x hx
          have hx2 := (List.mem_filter.mp hx).2
          simpa using hx2
  · -- found: st0 with the matching key already exists
    have hgc2 : s.stems.find? (fun st => st.name ==
          Tag.name (if staff (Tag.author {t with name := nNew, language := lNew})
            then {{t with name := nNew, language := lNew} with official := true}
            else {t with name := nNew, language := lNew})
        && st.language ==
          Tag.language (if staff (Tag.author {t with name := nNew, language := lNew})
            then {{t with name := nNew, language := lNew} with official := true}
            else {t with name := nNew, language := lNew})) = some st0 := by
      rw [hpred]
      exact hgc
    have hst0mem : st0 ∈ s.stems := List.mem_of_find?_eq_some hgc
    have hst0key := List.find?_some hgc
    have hst0name : st0.name = nNew := by
      simp only [Bool.and_eq_true, beq_iff_eq] at hst0key
      exact hst0key.1
    have hst0lang : st0.language = lNew := by
      simp only [Bool.and_eq_true, beq_iff_eq] at hst0key
      exact hst0key.2
    have hne : st0.id ≠ stOld.id := by
      intro hcon
      have heq : st0 = stOld := List.inj_on_of_nodup_map h2 hst0mem hstOld hcon
      exact hkey ⟨heq ▸ hst0name, heq ▸ hst0lang⟩
    have hguard : Tag.stem (if staff (Tag.author {t with name := nNew, language := lNew})
        then {{t with name := nNew, language := lNew} with official := true}
        else {t with name := nNew, language := lNew}) ≠ some st0.id := by
      rw [hT1stem]
      intro hcon
      have h9 : stOld.id = st0.id := by simpa using hcon
      exact hne h9.symm
    have hspec := update_stem_eq_switch_found_some hgc2 hguard hT1stem
    rw [hP, Prod.mk.injEq] at hspec
    obtain ⟨hS2, hT2⟩ := hspec
    subst hS2
    subst hT2
    have hgoc : get_or_create s nNew lNew = (s, st0.id) := by
      unfold get_or_create
      rw [hgc]
    rw [dec_count_eq_of_mem h2 hstOld]
    have hneb : (st0.id == stOld.id) = false := by
      simp
      omega
    by_cases hgt : stOld.tag_count > 1
    · rw [if_pos hgt]
      have hndd : (((s.stems.map (fun x =>
          if x.id == stOld.id then {x with tag_count := x.tag_count - 1} else x)).map
            (fun x => if x.id == st0.id then {x with tag_count := x.tag_count + 1} else x)).map
          Stem.id).Nodup := by
        rw [map_proj_congr Stem.id _ _
          (fun x _ => by by_cases hc : x.id = st0.id <;> simp [hc])]
        rw [map_proj_congr Stem.id _ _
          (fun x _ => by by_cases hc : x.id = stOld.id <;> simp [hc])]
        exact h2
      refine ⟨?_, ?_, ?_⟩
      · refine ⟨_, tagFind_replace h5 hmem hid hT1id, ?_, hT1name, hT1lang, hT1off⟩
        rw [hgoc]
      · refine ⟨{st0 with tag_count := st0.tag_count + 1}, ?_, hst0name, hst0lang, ?_⟩
        · rw [hgoc]
          show ((s.stems.map (fun x =>
              if x.id == stOld.id then {x with tag_count := x.tag_count - 1} else x)).map
              (fun x => if x.id == st0.id then {x with tag_count := x.tag_count + 1} else x)).find?
              (fun st => st.id == st0.id)
            = some {st0 with tag_count := st0.tag_count + 1}
          have hmemx : ({st0 with tag_count := st0.tag_count + 1} : Stem)
              ∈ (s.stems.map (fun x =>
                if x.id == stOld.id then {x with tag_count := x.tag_count - 1} else x)).map
                (fun x => if x.id == st0.id then {x with tag_count := x.tag_count + 1} else x) := by
            have him := List.mem_map_of_mem
              (fun x => if x.id == st0.id then {x with tag_count := x.tag_count + 1} else x)
              (List.mem_map_of_mem (fun x =>
                if x.id == stOld.id then {x with tag_count := x.tag_count - 1} else x) hst0mem)
            simpa [hneb] using him
          have := find?_key_of_nodup Stem.id hndd hmemx
          simpa using this
        · rw [hgc]
      · rw [if_pos hgt]
        show ((s.stems.map (fun x =>
            if x.id == stOld.id then {x with tag_count := x.tag_count - 1} else x)).map
            (fun x => if x.id == st0.id then {x with tag_count := x.tag_count + 1} else x)).find?
            (fun st => st.id == stOld.id)
          = some {stOld with tag_count := stOld.tag_count - 1}
        have hmemx : ({stOld with tag_count := stOld.tag_count - 1} : Stem)
            ∈ (s.stems.map (fun x =>
              if x.id == stOld.id then {x with tag_count := x.tag_count - 1} else x)).map
              (fun x => if x.id == st0.id then {x with tag_count := x.tag_count + 1} else x) := by
          have him := List.mem_map_of_mem
            (fun x => if x.id == st0.id then {x with tag_count := x.tag_count + 1} else x)
            (List.mem_map_of_mem (fun x =>
              if x.id == stOld.id then {x with tag_count := x.tag_count - 1} else x) hstOld)
          have hneb2 : (stOld.id == st0.id) = false := by
            simp
            omega
          simpa [hneb2] using him
        have := find?_key_of_nodup Stem.id hndd hmemx
        simpa using this
    · rw [if_neg hgt]
      have hnddf : (((s.stems.filter (fun x => !(x.id == stOld.id))).map
            (fun x => if x.id == st0.id then {x with tag_count := x.tag_count + 1} else x)).map
          Stem.id).Nodup := by
        rw [map_proj_congr Stem.id _ _
          (fun x _ => by by_cases hc : x.id = st0.id <;> simp [hc])]
        exact (List.Sublist.map Stem.id (List.filter_sublist s.stems)).nodup h2
      refine ⟨?_, ?_, ?_⟩
      · refine ⟨_, tagFind_replace h5 hmem hid hT1id, ?_, hT1name, hT1lang, hT1off⟩
        rw [hgoc]
      · refine ⟨{st0 with tag_count := st0.tag_count + 1}, ?_, hst0name, hst0lang, ?_⟩
        · rw [hgoc]
          show ((s.stems.filter (fun x => !(x.id == stOld.id))).map
              (fun x => if x.id == st0.id then {x with tag_count := x.tag_count + 1} else x)).find?
              (fun st => st.id == st0.id)
            = some {st0 with tag_count := st0.tag_count + 1}
          have hmemx : ({st0 with tag_count := st0.tag_count + 1} : Stem)
              ∈ (s.stems.filter (fun x => !(x.id == stOld.id))).map
                (fun x => if x.id == st0.id then {x with tag_count := x.tag_count + 1} else x) := by
            have hmf : st0 ∈ s.stems.filter (fun x => !(x.id == stOld.id)) :=
              List.mem_filter.mpr ⟨hst0mem, by simpa using hne⟩
            have him := List.mem_map_of_mem
              (fun x => if x.id == st0.id then {x with tag_count := x.tag_count + 1} else x) hmf
            simpa using him
          have := find?_key_of_nodup Stem.id hnddf hmemx
          simpa using this
        · rw [hgc]
      · rw [if_neg hgt]
        show ((s.stems.filter (fun x => !(x.id == stOld.id))).map
            (fun x => if x.id == st0.id then {x with tag_count := x.tag_count + 1} else x)).find?
            (fun st => st.id == stOld.id)
          = none
        apply List.find?_eq_none.mpr
        intro x hx
        rcases List.mem_map.mp hx with ⟨stb, hstb, rfl⟩
        have hb2 : ¬ stb.id = stOld.id := by
          simpa using (List.mem_filter.mp hstb).2
        by_cases hc : stb.id = st0.id <;> simp [hc] <;> omega

/-! ### Claim-level wrappers, witnesses and counterexamples -/

/-- C1: in every store reachable from the empty store by the public
operations (tagging, untagging, bulk untagging, re-saving a tag row through
`Tag.save`'s stem re-resolution, and tag deletion routed through the
`post_delete` hook `clean_stems`), every stem's `tag_count` equals the
number of live tag rows whose `stem` field references it. -/
theorem stem_count_matches_live_refs {staff : Nat → Bool} {s : Store}
    (h : Reach staff s) :
    ∀ st ∈ s.stems, st.tag_count = refs s st.id :=
  fun st hst => (reach_inv h).1 st hst

/-- Concrete instance of the C1 invariant at the store reached by tagging
entity `(0, 1)` with `"a b"`. -/
theorem stem_count_matches_live_refs_witness :
    TaggableBase.tag noStaff Store.empty "a b" (LangRef.intLang 1)
        (AuthorRef.authorObj 7) 0 1 = Except.ok c1store ∧
    ∀ st ∈ c1store.stems, st.tag_count = refs c1store st.id :=
  ⟨rfl, stem_count_matches_live_refs
    (Reach.tagStep Reach.init
      (show TaggableBase.tag noStaff Store.empty "a b" (LangRef.intLang 1)
          (AuthorRef.authorObj 7) 0 1 = Except.ok c1store from rfl))⟩

/-- Counterexample to C2 as stated: re-saving the tag of `c2store` with its
author switched to the non-staff author 1 while `official` is stored as
`true` leaves `official = true` after the save, although the author does not
resolve to a staff identity — the flag is not recomputed on every save. -/
theorem save_official_not_recomputed :
    exStaff 1 = false ∧
    tagFind (Tag.save exStaff c2store
        (editTag ⟨some 0, "a", 1, some 0, 0, true, 0, 1⟩ "a" 1 1 true)) (some 0)
      = some ⟨some 0, "a", 1, some 0, 1, true, 0, 1⟩ :=
  ⟨rfl, rfl⟩

/-- Concrete instance of the C3 asymmetry: decrementing the count-1 stem
`"a"` of `c1store` deletes the row, leaves stem 1 untouched, and leaves no
zero-count row behind. -/
theorem dec_count_spec_witness :
    (stemFind (TagStem.dec_count c1store 0) 0 = none) ∧
    (∀ j, j ≠ 0 → stemFind (TagStem.dec_count c1store 0) j = stemFind c1store j) ∧
    (∀ st2 ∈ (TagStem.dec_count c1store 0).stems, ¬(st2.id = 0 ∧ st2.tag_count = 0)) :=
  dec_count_spec c1store ⟨0, "a", 1, 1⟩ (by decide) (by decide)

/-- Concrete instance of C4: retagging the only `"x"` tag of entity `(1, 7)`
to `"y"` deletes `Stem("x")` and leaves `Stem("y")` with count 1. -/
theorem save_retag_spec_witness :
    (∃ tr, tagFind (Tag.save noStaff c4store
          {(⟨some 0, "x", 5, some 0, 3, false, 1, 7⟩ : Tag) with
            name := "y", language := 5}) (some 0) = some tr ∧
        tr.stem = some (get_or_create c4store "y" 5).2 ∧
        tr.name = "y" ∧ tr.language = 5 ∧
        tr.official = ((⟨some 0, "x", 5, some 0, 3, false, 1, 7⟩ : Tag).official
          || noStaff (⟨some 0, "x", 5, some 0, 3, false, 1, 7⟩ : Tag).author)) ∧
    (∃ str, stemFind (Tag.save noStaff c4store
          {(⟨some 0, "x", 5, some 0, 3, false, 1, 7⟩ : Tag) with
            name := "y", language := 5})
          (get_or_create c4store "y" 5).2 = some str ∧
        str.name = "y" ∧ str.language = 5 ∧
        str.tag_count = (match c4store.stems.find? (fun st0 =>
            st0.name == "y" && st0.language == 5) with
          | some st0 => st0.tag_count
          | none => 0) + 1) ∧
    (stemFind (Tag.save noStaff c4store
        {(⟨some 0, "x", 5, some 0, 3, false, 1, 7⟩ : Tag) with
          name := "y", language := 5})
        (Stem.id ⟨0, "x", 5, 1⟩)
      = if Stem.tag_count ⟨0, "x", 5, 1⟩ > 1
        then some {(⟨0, "x", 5, 1⟩ : Stem) with
          tag_count := Stem.tag_count ⟨0, "x", 5, 1⟩ - 1}
        else none) :=
  save_retag_spec noStaff c4store ⟨some 0, "x", 5, some 0, 3, false, 1, 7⟩
    ⟨0, "x", 5, 1⟩ "y" 5 0 (by decide) (by decide) rfl rfl (by decide) (by decide)

/-- Concrete instance of C5 on the red/blue vs blue/green scenario: entity
`(0, 1)` appears in the similarity list of `(0, 2)` at distance 2. -/
theorem similar_objects_spec_witness :
    ∃ out, TaggableBase.similar_objects c5store (0, 2) false false = Except.ok out ∧
      out.Sorted distLE ∧
      ((∃ d, (((0, 1) : Entity), d) ∈ out) ↔
        setInter (stemsFor c5store false (0, 1)) (stemsFor c5store false (0, 2)) ≠ []) ∧
      (setInter (stemsFor c5store false (0, 1)) (stemsFor c5store false (0, 2)) ≠ [] →
        (((0, 1) : Entity), (setSymmDiff (stemsFor c5store false (0, 1))
          (stemsFor c5store false (0, 2))).length) ∈ out) :=
  similar_objects_spec c5store (0, 2) (0, 1) false false
    (by decide) (by decide) (by decide)

/-- Concrete instance of C7: untagging `"c"` (language 99) from `c1store`,
where nothing matches, succeeds and returns the store unchanged. -/
theorem untag_spec_witness :
    ∃ s2, TaggableBase.untag c1store "c" (LangRef.intLang 99) (AuthorRef.authorObj 7) 0 1
        = Except.ok s2 ∧
      s2.tags = c1store.tags.filter (fun t =>
        !((parse_tag_input "c").contains t.name && untagRest 99 7 0 1 t)) ∧
      ((∀ n ∈ parse_tag_input "c", c1store.tags.filter (untagMatches n 99 7 0 1) = []) →
        s2 = c1store) :=
  untag_spec c1store "c" 99 7 0 1 (by decide) (by
    intro n
    have e1 : untagMatches n 99 7 0 1 ⟨some 0, "a", 1, some 0, 7, false, 0, 1⟩ = false := by
      simp [untagMatches, untagRest]
    have e2 : untagMatches n 99 7 0 1 ⟨some 1, "b", 1, some 1, 7, false, 0, 1⟩ = false := by
      simp [untagMatches, untagRest]
    show (c1store.tags.filter (untagMatches n 99 7 0 1)).length ≤ 1
    rw [show c1store.tags = [⟨some 0, "a", 1, some 0, 7, false, 0, 1⟩,
      ⟨some 1, "b", 1, some 1, 7, false, 0, 1⟩] from rfl]
    rw [List.filter_cons, List.filter_cons, e1, e2]
    simp)

/-- Concrete instance of C8: the synchronizer's event traces for an update
(primary key 4) and for a creation (no primary key). -/
theorem taggable_save_order_witness :
    Taggable.save (some 4) "a, b" 1 2
        = [SyncEvent.untagAllEv 2,
           SyncEvent.tagEv (String.mk (List.intercalate [',', ' ']
             ((parse_tag_input "a, b").map String.data))) 1 2,
           SyncEvent.persistEv] ∧
    Taggable.save none "a, b" 1 2
        = [SyncEvent.persistEv,
           SyncEvent.tagEv (String.mk (List.intercalate [',', ' ']
             ((parse_tag_input "a, b").map String.data))) 1 2] :=
  ⟨(taggable_save_order (some 4) "a, b" 1 2).1 4 rfl (by decide),
   (taggable_save_order none "a, b" 1 2).2 rfl⟩

/-- Concrete instance of C9: the untagged entity `(0, 9)` makes
`similar_objects` raise `KeyError` on `c5store`. -/
theorem similar_objects_keyerror_witness :
    TaggableBase.similar_objects c5store (0, 9) false false
      = Except.error "KeyError" :=
  similar_objects_keyerror c5store (0, 9) false false (by decide)
